import Mathlib

/-!
# Verification of the quantmini incremental-ingestion and flattening core

This file gives a shallow embedding, in Lean 4, of the parts of the
quantmini data pipeline that the specification's testable properties talk
about:

* `src/storage/metadata_manager.py` (`MetadataManager`): the watermark
  store, the ingestion ledger, and the statistics summary.  The metadata
  directory is modelled as a finite map from paths (lists of path
  components) to JSON documents; every write mirrors Python's
  `open(file, 'w')` semantics (create or truncate-and-replace).
* `scripts/ingestion/landing_to_bronze.py` (`process_landing_to_bronze`):
  the incremental loop that consults the watermark before ingesting a
  landing file.
* `scripts/transformation/flatten_fundamentals.py`
  (`FundamentalsFlattener`): the multi-statement merge
  (`_flatten_ticker`), the ratio calculator
  (`_calculate_financial_ratios`) and the growth-rate calculator
  (`_calculate_growth_rates`).  Polars dataframes are modelled as lists
  of rows of optional cells; Polars `Float64` cells are modelled by an
  explicit IEEE-style domain `PFloat` (NaN, ±infinity, finite rational).
* `scripts/transformation/extract_fundamental_schemas.py`
  (`FundamentalsSchemaExtractor`): the occurrence-counting schema
  discoverer.
* `scripts/transformation/corporate_actions_silver_optimized.py`
  (`write_partitioned_silver`): the ticker × event-type partition writer.

Python string comparison (code-point lexicographic) is embedded by an
executable Boolean order on `List Char`; Python dict/JSON documents are
embedded as Lean structures with `Option` fields for nullable entries.
The wall clock (`datetime.now()`) is passed in explicitly as an opaque
timestamp string, so that every embedded operation is a pure function of
its inputs.
-/

namespace Spec2Proof

/-! ## Strings: Python's lexicographic order, slicing, substring test -/

/-- Code-point lexicographic `≤` on lists of characters; this is exactly
Python's `<=` on strings (Python compares strings by code point). -/
def lexLe : List Char → List Char → Bool
  | [], _ => true
  | _ :: _, [] => false
  | a :: as, b :: bs =>
    if a.toNat < b.toNat then true
    else if b.toNat < a.toNat then false
    else lexLe as bs

/-- Python's `s1 <= s2` on strings. -/
def strLe (a b : String) : Bool := lexLe a.data b.data

/-- Python's `s1 < s2` on strings (total order: `a < b ↔ ¬ b ≤ a`). -/
def strLt (a b : String) : Bool := ! strLe b a

/-- Python's `needle in hay` on lists (contiguous substring test). -/
def isInfixB (p l : List Char) : Bool := l.tails.any fun t => p.isPrefixOf t

/-- Python's `needle in hay` on strings. -/
def containsSub (needle hay : String) : Bool := isInfixB needle.data hay.data

/-- Python slicing `s[:n]` (by code points). -/
def strTake (s : String) (n : Nat) : String := ⟨s.data.take n⟩

/-- Python slicing `s[n:]` (by code points). -/
def strDrop (s : String) (n : Nat) : String := ⟨s.data.drop n⟩

/-! ## A stable insertion sort (models Python's stable `list.sort`) -/

/-- Insert `x` after every element `y` with `le y x` (stable insertion). -/
def insertLe (le : α → α → Bool) (x : α) : List α → List α
  | [] => [x]
  | y :: ys => if le y x then y :: insertLe le x ys else x :: y :: ys

/-- Stable insertion sort by a Boolean `≤`. -/
def sortLe (le : α → α → Bool) : List α → List α
  | [] => []
  | x :: xs => insertLe le x (sortLe le xs)

/-! ## MetadataManager: data model

The metadata root directory is a finite map from paths to JSON documents.
A path is the list of components below `metadata_root`.  Exactly two
document shapes are ever written by `MetadataManager`: ledger records
(`record_ingestion`) and watermark records (`set_watermark`). -/

/-- The `statistics` dict of a ledger record.  Only the keys that
`MetadataManager` itself reads are modelled; a missing key is `none`. -/
structure Stats where
  records : Option Int := none
  symbols_converted : Option Int := none
  records_enriched : Option Int := none
  file_size_mb : Option ℚ := none
  processing_time_sec : Option ℚ := none
  reason : Option String := none
deriving DecidableEq

/-- The JSON document written by `MetadataManager.record_ingestion`
(lines 77-86 of `metadata_manager.py`). -/
structure LedgerRecord where
  data_type : String
  date : String
  symbol : Option String
  status : String
  layer : String
  timestamp : String
  statistics : Stats
  error : Option String
deriving DecidableEq

/-- The JSON document written by `MetadataManager.set_watermark`
(lines 265-271 of `metadata_manager.py`).  It has no `status` key. -/
structure WatermarkRecord where
  data_type : String
  symbol : Option String
  date : String
  layer : String
  timestamp : String
deriving DecidableEq

/-- A JSON file stored under the metadata root. -/
inductive MetaFile
  | ledger (r : LedgerRecord)
  | watermark (w : WatermarkRecord)
deriving DecidableEq

/-- A path below `metadata_root`, as a list of components. -/
abbrev DirPath := List String

/-- The state of the metadata directory: an association list from paths
to files.  `fsWrite` keeps at most one file per path, like a filesystem. -/
abbrev Store := List (DirPath × MetaFile)

def emptyStore : Store := []

/-- `open(path, 'w'); json.dump(...)`: create or replace the file. -/
def fsWrite (s : Store) (p : DirPath) (f : MetaFile) : Store :=
  s.filter (fun e => decide (e.1 ≠ p)) ++ [(p, f)]

/-- Read the file at a path, if present. -/
def fsLookup (s : Store) (p : DirPath) : Option MetaFile :=
  (s.find? (fun e => decide (e.1 = p))).map Prod.snd

/-- File name used by `_get_metadata_file`:
`{date}_{symbol}.json` with a symbol, else `{date}.json`. -/
def ledgerFileName (date : String) (symbol : Option String) : String :=
  match symbol with
  | some sym => date ++ "_" ++ sym ++ ".json"
  | none => date ++ ".json"

/-- `MetadataManager._get_metadata_file` (lines 418-444):
`{layer}/{data_type}/{date[:4]}/{date[5:7]}/{file name}`. -/
def metadataFilePath (data_type date : String) (symbol : Option String)
    (layer : String) : DirPath :=
  [layer, data_type, strTake date 4, strTake (strDrop date 5) 2,
   ledgerFileName date symbol]

/-- File name used by `_get_watermark_file`. -/
def watermarkFileName (symbol : Option String) : String :=
  match symbol with
  | some sym => "watermark_" ++ sym ++ ".json"
  | none => "watermark.json"

/-- `MetadataManager._get_watermark_file` (lines 446-470):
`{layer}/{data_type}/{file name}`. -/
def watermarkFilePath (data_type : String) (symbol : Option String)
    (layer : String) : DirPath :=
  [layer, data_type, watermarkFileName symbol]

/-- `MetadataManager.record_ingestion` (lines 53-98).  The wall clock is
the explicit `now` argument.  The record is written to the deterministic
per-partition path with `open(..., 'w')`, i.e. replacing any previous
file at that path. -/
def recordIngestion (s : Store) (data_type date status : String)
    (statistics : Stats) (symbol : Option String) (error : Option String)
    (layer : String) (now : String) : Store :=
  fsWrite s (metadataFilePath data_type date symbol layer)
    (MetaFile.ledger
      { data_type := data_type, date := date, symbol := symbol,
        status := status, layer := layer, timestamp := now,
        statistics := statistics, error := error })

/-- `MetadataManager.set_watermark` (lines 245-279). -/
def setWatermark (s : Store) (data_type date : String)
    (symbol : Option String) (layer : String) (now : String) : Store :=
  fsWrite s (watermarkFilePath data_type symbol layer)
    (MetaFile.watermark
      { data_type := data_type, symbol := symbol, date := date,
        layer := layer, timestamp := now })

/-! ## MetadataManager: queries -/

/-- Python truthiness of an optional string (`None` and `""` are falsy). -/
def pyTruthy : Option String → Bool
  | none => false
  | some s => decide (s ≠ "")

/-- Python `a or b` for an optional string vs. a fallback. -/
def pyOrStr (o : Option String) (alt : String) : String :=
  match o with
  | some s => if s = "" then alt else s
  | none => alt

/-- Last path component (the file name). -/
def lastComponent (p : DirPath) : String := p.getLastD ""

/-- Python `s.endswith(t)` / the `*.json` glob condition. -/
def strEndsWith (s t : String) : Bool := t.data.isSuffixOf s.data

/-- The date/status filters of `list_ingestions` (lines 190-196).
A record is kept unless a truthy filter rejects it. -/
def matchesQuery (startDate endDate status : Option String)
    (r : LedgerRecord) : Bool :=
  (if pyTruthy startDate then ! strLt r.date (startDate.getD "") else true)
  && (if pyTruthy endDate then ! strLt (endDate.getD "") r.date else true)
  && (if pyTruthy status then decide (r.status = status.getD "") else true)

/-- The condition under which `list_ingestions` keeps the ledger record
`r` stored at path `p` when searching directory `pre`: the file lies
strictly below `pre`, matches the `*.json` glob, its name does not
contain `watermark`, and the record passes the query filters. -/
def keepLedger (pre : DirPath) (startDate endDate status : Option String)
    (p : DirPath) (r : LedgerRecord) : Bool :=
  pre.isPrefixOf p && decide (pre.length < p.length)
  && strEndsWith (lastComponent p) ".json"
  && ! containsSub "watermark" (lastComponent p)
  && matchesQuery startDate endDate status r

/-- One search directory of `list_ingestions`: every `*.json` file
strictly below `pre` whose name does not contain `watermark` and which
parses to a record containing `status` and `date` keys (watermark
documents do not), filtered by the query. -/
def collectDir (s : Store) (pre : DirPath)
    (startDate endDate status : Option String) : List LedgerRecord :=
  s.filterMap fun e =>
    match e.2 with
    | MetaFile.watermark _ => none
    | MetaFile.ledger r =>
      if keepLedger pre startDate endDate status e.1 r then some r else none

/-- The search directories of `list_ingestions` (lines 156-170): the
requested layer, or — when no layer is given — all four layers plus the
old flat layout.  A directory with no matching files contributes
nothing, which also covers the `exists()` checks. -/
def layerDirs (data_type : String) (layer : Option String) : List DirPath :=
  match layer with
  | some l => [[l, data_type]]
  | none =>
    [["landing", data_type], ["bronze", data_type], ["silver", data_type],
     ["gold", data_type], [data_type]]

/-- Sort key of `list_ingestions` line 204: `(date, symbol or '')`,
compared lexicographically.  (CPython compares the raw `None` when the
symbol is absent, which raises `TypeError` if `None` meets a string
under an equal date; the embedding totalises that comparison by mapping
`None` to `""`.) -/
def recordSortLe (r1 r2 : LedgerRecord) : Bool :=
  if r1.date = r2.date then strLe (r1.symbol.getD "") (r2.symbol.getD "")
  else strLt r1.date r2.date

/-- `MetadataManager.list_ingestions` (lines 132-209), as a pure read of
the store.  Python's stable `list.sort` is modelled by the stable
insertion sort `sortLe`. -/
def listIngestions (s : Store) (data_type : String)
    (startDate endDate status layer : Option String) : List LedgerRecord :=
  sortLe recordSortLe
    ((layerDirs data_type layer).flatMap
      (fun pre => collectDir s pre startDate endDate status))

/-- Python `max(records, key=lambda r: r['date'])`: the first record
with the maximal date. -/
def pickLatest (records : List LedgerRecord) : Option LedgerRecord :=
  match records with
  | [] => none
  | h :: t => some (t.foldl (fun best r => if strLt best.date r.date then r else best) h)

/-- `MetadataManager.get_watermark` (lines 211-243).  Note: it derives
the watermark from `status='success'` ledger records via
`list_ingestions` — which skips every file whose name contains
`watermark` — and therefore never reads the documents written by
`set_watermark`.  It is a pure read: the store is not modified. -/
def getWatermark (s : Store) (data_type : String) (symbol : Option String)
    (layer : String) : Option String :=
  let records := listIngestions s data_type none none (some "success") (some layer)
  let records :=
    if pyTruthy symbol then records.filter (fun r => decide (r.symbol = symbol))
    else records
  (pickLatest records).map (fun r => r.date)

/-- The dict returned by `get_statistics_summary`.  Keys that the empty
branch (lines 341-348) omits are modelled as `Option` fields, `none`
meaning the key is absent from the returned dict. -/
structure Summary where
  data_type : String
  total_jobs : Nat
  success : Nat
  failed : Nat
  skipped : Nat
  success_rate : Option ℚ
  date_range : Option (String × String)
  total_records : Option Int
  total_size_mb : Option ℚ
deriving DecidableEq

/-- `r['statistics'].get('records', .get('symbols_converted',
.get('records_enriched', 0)))` (lines 361-364). -/
def statRecordsOf (st : Stats) : Int :=
  st.records.getD (st.symbols_converted.getD (st.records_enriched.getD 0))

/-- `MetadataManager.get_statistics_summary` (lines 319-392). -/
def statisticsSummary (s : Store) (data_type : String)
    (startDate endDate layer : Option String) : Summary :=
  let records := listIngestions s data_type startDate endDate none layer
  match records with
  | [] =>
    { data_type := data_type, total_jobs := 0, success := 0, failed := 0,
      skipped := 0, success_rate := none, date_range := none,
      total_records := none, total_size_mb := none }
  | _ :: _ =>
    let total_jobs := records.length
    let success := (records.filter (fun r => decide (r.status = "success"))).length
    let failed := (records.filter (fun r => decide (r.status = "failed"))).length
    let skipped := (records.filter (fun r => decide (r.status = "skipped"))).length
    let successful_count := success + skipped
    { data_type := data_type,
      total_jobs := total_jobs,
      success := success,
      failed := failed,
      skipped := skipped,
      success_rate :=
        some (if total_jobs > 0 then (successful_count : ℚ) / total_jobs else 0),
      date_range :=
        some (pyOrStr startDate (((records.head?).map (fun r => r.date)).getD ""),
              pyOrStr endDate (((records.getLast?).map (fun r => r.date)).getD "")),
      total_records :=
        some (((records.filter (fun r => decide (r.status = "success"))).map
          (fun r => statRecordsOf r.statistics)).sum),
      total_size_mb :=
        some (((records.filter (fun r => decide (r.status = "success"))).map
          (fun r => r.statistics.file_size_mb.getD 0)).sum) }

/-! ## `process_landing_to_bronze` (scripts/ingestion/landing_to_bronze.py)

The incremental loop over landing files (lines 168-257).  A landing
file is identified by its date string (the stem of the file name); the
ingestor is an oracle `ingest : date → Option IngestResult` standing for
`ingestor.ingest_date` (`None` models a falsy result).  The second
component of the result collects the dates whose files were actually
opened and ingested (the unit I/O); a unit skipped by the watermark
check is `continue`d before any I/O. -/

/-- The dict returned by `ingestor.ingest_date`; absent keys are `none`. -/
structure IngestResult where
  status : String
  records : Option Int := none
  file_size_mb : Option ℚ := none
  processing_time_sec : Option ℚ := none
  reason : Option String := none
deriving DecidableEq

/-- The statistics dict recorded for a success/skipped unit
(lines 211-216 of `landing_to_bronze.py`). -/
def ingestStats (res : IngestResult) : Stats :=
  { records := some (res.records.getD 0),
    file_size_mb := some (res.file_size_mb.getD 0),
    processing_time_sec := some (res.processing_time_sec.getD 0),
    reason := some (res.reason.getD "") }

/-- One iteration of the landing → bronze loop (lines 179-257), acting
on (store, dates-ingested-so-far).  `wm` is the watermark fetched once
before the loop. -/
def landingStep (data_type : String) (incremental : Bool) (wm : Option String)
    (ingest : String → Option IngestResult) (now : String)
    (acc : Store × List String) (fd : String) : Store × List String :=
  if incremental && pyTruthy wm && strLe fd (wm.getD "") then acc
  else
    match ingest fd with
    | some res =>
      if res.status = "success" || res.status = "skipped" then
        let s1 := recordIngestion acc.1 data_type fd res.status
          (ingestStats res) none none "bronze" now
        let s2 := setWatermark s1 data_type fd none "bronze" now
        (s2, acc.2 ++ [fd])
      else
        (recordIngestion acc.1 data_type fd "failed" { } none
          (some "Ingestion returned non-success status") "bronze" now,
         acc.2 ++ [fd])
    | none =>
      (recordIngestion acc.1 data_type fd "failed" { } none
        (some "Ingestion returned non-success status") "bronze" now,
       acc.2 ++ [fd])

/-- `process_landing_to_bronze` (lines 96-257): fetch the watermark once
(incremental mode only), then fold the per-file loop over the landing
files in order. -/
def processLandingToBronze (s : Store) (data_type : String)
    (files : List String) (incremental : Bool)
    (ingest : String → Option IngestResult) (now : String) :
    Store × List String :=
  let wm := if incremental then getWatermark s data_type none "bronze" else none
  files.foldl (landingStep data_type incremental wm ingest now) (s, [])

/-! ## Polars dataframes

A dataframe over cell type `α`: named columns and rows of optional
cells aligned positionally with `cols` (a `none` cell is a Polars
null). -/

structure Table (α : Type) where
  cols : List String
  rows : List (List (Option α))
deriving DecidableEq

/-- Position of the first column named `c`. -/
def colIdx (cols : List String) (c : String) : Option Nat :=
  match cols with
  | [] => none
  | x :: xs => if x = c then some 0 else (colIdx xs c).map (· + 1)

/-- The cell of `row` in column `c` of table `t` (null when the column
is absent). -/
def getCell [DecidableEq α] (t : Table α) (row : List (Option α)) (c : String) :
    Option α :=
  match colIdx t.cols c with
  | none => none
  | some j => row.getD j none

/-- An all-null row shaped like `t`. -/
def nullRow (t : Table α) : List (Option α) := t.cols.map (fun _ => none)

/-- Polars join-key equality: rows match when every key column is
non-null on both sides and equal (`join_nulls=False`, the default: null
keys never match). -/
def keysMatch [DecidableEq α] (lt rt : Table α) (keys : List String)
    (lr rr : List (Option α)) : Bool :=
  keys.all fun k =>
    match getCell lt lr k, getCell rt rr k with
    | some a, some b => decide (a = b)
    | _, _ => false

/-- Polars `left.join(right, on=keys, how='full', suffix=sfx)` with the
default `coalesce=None`: key columns are *not* coalesced — the right
key columns come back suffixed next to the left ones; an unmatched left
row carries nulls in all right columns, an unmatched right row carries
nulls in all left columns (its key values live only in the suffixed
right key columns). -/
def fullJoin [DecidableEq α] (lt rt : Table α) (keys : List String)
    (sfx : String) : Table α :=
  { cols := lt.cols ++ (rt.cols.map fun c => if c ∈ lt.cols then c ++ sfx else c),
    rows :=
      (lt.rows.flatMap fun lr =>
        let ms := rt.rows.filter fun rr => keysMatch lt rt keys lr rr
        if ms.isEmpty then [lr ++ nullRow rt]
        else ms.map fun rr => lr ++ rr)
      ++ ((rt.rows.filter fun rr =>
            ! lt.rows.any fun lr => keysMatch lt rt keys lr rr).map
          fun rr => nullRow lt ++ rr) }

/-- `df.drop(columns matching pred)` (column positions preserved). -/
def dropColsBy (t : Table α) (pred : String → Bool) : Table α :=
  let keepIdx := (List.range t.cols.length).filter
    fun i => ! pred (t.cols.getD i "")
  { cols := keepIdx.map fun i => t.cols.getD i "",
    rows := t.rows.map fun r => keepIdx.map fun i => r.getD i none }

/-- `df.select(cs)`. -/
def selectCols [DecidableEq α] (t : Table α) (cs : List String) : Table α :=
  { cols := cs, rows := t.rows.map fun r => cs.map fun c => getCell t r c }

/-- The natural key of the fundamentals merge
(`flatten_fundamentals.py` line 199). -/
def fundamentalsKeyCols : List String :=
  ["ticker", "filing_date", "fiscal_year", "fiscal_period"]

/-- `get_metric_cols` (lines 205-208): the non-key columns of a table. -/
def getMetricCols (t : Table α) (keyCols : List String) : List String :=
  let allKey := keyCols.filter fun c => decide (c ∈ t.cols)
  t.cols.filter fun c => decide (c ∉ allKey)

/-- One join step of `_flatten_ticker` (lines 211-232): select key +
metric columns of the source, full-join on the natural key with the
given suffix, then drop every column that received the suffix. -/
def joinStep [DecidableEq α] (merged src : Table α) (sfx : String) : Table α :=
  let metric := getMetricCols src fundamentalsKeyCols
  let toJoin := selectCols src (fundamentalsKeyCols ++ metric)
  dropColsBy (fullJoin merged toJoin fundamentalsKeyCols sfx)
    (fun c => strEndsWith c sfx)

/-- The merge of `_flatten_ticker` (lines 198-234).  `merged` starts as
the first available statement table; the income statement is joined
unless it *is* the start (`merged is not is_flat`), then cash flow
likewise. -/
def mergeStatements [DecidableEq α] (bs is2 cf : Option (Table α)) :
    Option (Table α) :=
  match bs, is2, cf with
  | none, none, none => none
  | some b, none, none => some b
  | none, some i, none => some i
  | none, none, some c => some c
  | some b, some i, none => some (joinStep b i "_is_dup")
  | some b, none, some c => some (joinStep b c "_cf_dup")
  | none, some i, some c => some (joinStep i c "_cf_dup")
  | some b, some i, some c =>
    some (joinStep (joinStep b i "_is_dup") c "_cf_dup")

/-! ## Polars Float64 arithmetic

Polars `Float64` cells (the dtype of every metric column after the
Int→Float64 standardisation at `flatten_fundamentals.py` lines 127-144)
are modelled by an explicit IEEE-style value domain: NaN, ±∞, or a
finite value (represented exactly by a rational; rounding of finite
results is immaterial to the null/NaN/∞ classification the claims are
about).  Arithmetic on *cells* (`Option PFloat`) is null-propagating,
as in Polars: any operation with a null operand is null. -/

inductive PFloat
  | nan
  | pinf
  | ninf
  | fin (q : ℚ)
deriving DecidableEq

/-- IEEE division on Float64 values: division of a non-zero finite
value by (positive) zero is ±∞, `0.0 / 0.0` is NaN — never an error and
never null. -/
def pfDiv : PFloat → PFloat → PFloat
  | PFloat.nan, _ => PFloat.nan
  | _, PFloat.nan => PFloat.nan
  | PFloat.pinf, PFloat.pinf => PFloat.nan
  | PFloat.pinf, PFloat.ninf => PFloat.nan
  | PFloat.ninf, PFloat.pinf => PFloat.nan
  | PFloat.ninf, PFloat.ninf => PFloat.nan
  | PFloat.pinf, PFloat.fin b => if b < 0 then PFloat.ninf else PFloat.pinf
  | PFloat.ninf, PFloat.fin b => if b < 0 then PFloat.pinf else PFloat.ninf
  | PFloat.fin _, PFloat.pinf => PFloat.fin 0
  | PFloat.fin _, PFloat.ninf => PFloat.fin 0
  | PFloat.fin a, PFloat.fin b =>
    if b = 0 then
      if a = 0 then PFloat.nan else if 0 < a then PFloat.pinf else PFloat.ninf
    else PFloat.fin (a / b)

/-- IEEE subtraction on Float64 values. -/
def pfSub : PFloat → PFloat → PFloat
  | PFloat.nan, _ => PFloat.nan
  | _, PFloat.nan => PFloat.nan
  | PFloat.pinf, PFloat.pinf => PFloat.nan
  | PFloat.ninf, PFloat.ninf => PFloat.nan
  | PFloat.pinf, _ => PFloat.pinf
  | PFloat.ninf, _ => PFloat.ninf
  | PFloat.fin _, PFloat.pinf => PFloat.ninf
  | PFloat.fin _, PFloat.ninf => PFloat.pinf
  | PFloat.fin a, PFloat.fin b => PFloat.fin (a - b)

/-- `.abs()` on Float64 values. -/
def pfAbs : PFloat → PFloat
  | PFloat.nan => PFloat.nan
  | PFloat.pinf => PFloat.pinf
  | PFloat.ninf => PFloat.pinf
  | PFloat.fin a => PFloat.fin |a|

/-- Null-propagating cell division (Polars `a / b`). -/
def optDiv : Option PFloat → Option PFloat → Option PFloat
  | some a, some b => some (pfDiv a b)
  | _, _ => none

/-- Null-propagating cell subtraction (Polars `a - b`). -/
def optSub : Option PFloat → Option PFloat → Option PFloat
  | some a, some b => some (pfSub a b)
  | _, _ => none

/-- Null-propagating cell `.abs()`. -/
def optAbs : Option PFloat → Option PFloat
  | some a => some (pfAbs a)
  | none => none

/-! ## `_calculate_financial_ratios` (flatten_fundamentals.py 368-433) -/

/-- `df.with_columns(expr.alias(name))`: replace the column in place if
it exists, else append it on the right. -/
def withColumn [DecidableEq α] (t : Table α) (name : String)
    (vals : List (Option α)) : Table α :=
  if name ∈ t.cols then
    let j := (t.cols.indexOf? name).getD 0
    { cols := t.cols, rows := (t.rows.zip vals).map fun p => p.1.set j p.2 }
  else
    { cols := t.cols ++ [name], rows := (t.rows.zip vals).map fun p => p.1 ++ [p.2] }

/-- One guarded `with_columns` block of the ratio calculator: when the
guard (a condition on the *input* frame's columns) holds, attach the
derived column computed row-wise on the current result frame. -/
def addDerived (t : Table PFloat) (guard : Bool) (oc : String)
    (g : List (Option PFloat) → Option PFloat) : Table PFloat :=
  if guard then withColumn t oc (t.rows.map g) else t

/-- One `if nc in df.columns and dc in df.columns: result =
result.with_columns((pl.col(nc) / pl.col(dc)).alias(oc))` block: the
guard looks at the *input* frame `df`, the expression evaluates on the
current result frame `t`. -/
def ratioBlock (df t : Table PFloat) (nc dc oc : String) : Table PFloat :=
  addDerived t (decide (nc ∈ df.cols ∧ dc ∈ df.cols)) oc
    (fun r => optDiv (getCell t r nc) (getCell t r dc))

/-- The quick-ratio block (lines 413-416): `(current assets − inventory)
/ current liabilities`, guarded on all three columns. -/
def quickBlock (df t : Table PFloat) : Table PFloat :=
  addDerived t
    (decide ("bs_current_assets" ∈ df.cols ∧ "bs_inventory" ∈ df.cols
      ∧ "bs_current_liabilities" ∈ df.cols)) "ratio_quick"
    (fun r => optDiv
      (optSub (getCell t r "bs_current_assets") (getCell t r "bs_inventory"))
      (getCell t r "bs_current_liabilities"))

/-- `FundamentalsFlattener._calculate_financial_ratios`: the eight
guarded ratio blocks in source order, each computing only when its
operand columns are present in the input frame. -/
def calcFinancialRatios (df : Table PFloat) : Table PFloat :=
  ratioBlock df
    (ratioBlock df
      (quickBlock df
        (ratioBlock df
          (ratioBlock df
            (ratioBlock df
              (ratioBlock df
                (ratioBlock df df "is_net_income_loss" "bs_equity" "ratio_roe")
                "is_net_income_loss" "bs_assets" "ratio_roa")
              "is_net_income_loss" "is_revenues" "ratio_profit_margin")
            "is_operating_income_loss" "is_revenues" "ratio_operating_margin")
          "bs_current_assets" "bs_current_liabilities" "ratio_current"))
      "bs_liabilities" "bs_equity" "ratio_debt_to_equity")
    "bs_liabilities" "bs_assets" "ratio_debt_to_assets"

/-- The eight ratio column names of `_calculate_financial_ratios`. -/
def ratioNames : List String :=
  ["ratio_roe", "ratio_roa", "ratio_profit_margin", "ratio_operating_margin",
   "ratio_current", "ratio_quick", "ratio_debt_to_equity", "ratio_debt_to_assets"]

/-- Every row has one cell per column. -/
def Wide (t : Table α) : Prop := ∀ r ∈ t.rows, r.length = t.cols.length

/-! ## `_calculate_growth_rates` (flatten_fundamentals.py 435-477)

The growth calculator touches the `ticker` and `filing_date` key
columns plus three Float64 metric columns; its rows are embedded as a
structure carrying exactly those. -/

structure GRow where
  ticker : String
  filing_date : String
  is_revenues : Option PFloat
  is_net_income_loss : Option PFloat
  bs_assets : Option PFloat
deriving DecidableEq

/-- A growth-calculator output row: the input row plus the four growth
columns added by `_calculate_growth_rates`. -/
structure GRowOut where
  base : GRow
  growth_revenue_yoy : Option PFloat
  growth_revenue_qoq : Option PFloat
  growth_net_income_yoy : Option PFloat
  growth_assets_yoy : Option PFloat
deriving DecidableEq

/-- Sort key of `df.sort(['ticker', 'filing_date'])`. -/
def gRowLe (a b : GRow) : Bool :=
  if a.ticker = b.ticker then strLe a.filing_date b.filing_date
  else strLt a.ticker b.ticker

/-- The value `expr.shift(n).over('ticker')` feeds into row `k` of a
ticker group `grp` (frame order): the field of `grp[k−n]` when `k ≥ n`,
null for the first `n` rows of the group. -/
def shiftInGroup (grp : List GRow) (f : GRow → Option PFloat) (n k : Nat) :
    Option PFloat :=
  if n ≤ k then
    match grp[k - n]? with
    | some x => f x
    | none => none
  else none

/-- The output row for the `k`-th row `r` (in frame order) of ticker
group `grp`: the four growth expressions of lines 447-473.
`growth_revenue_yoy = (rev − rev.shift(4)) / rev.shift(4)`,
`growth_revenue_qoq` with shift 1, `growth_net_income_yoy` divides by
`.shift(4).abs()`, `growth_assets_yoy` like revenue with `bs_assets`. -/
def growthOfGroup (grp : List GRow) (k : Nat) (r : GRow) : GRowOut :=
  { base := r,
    growth_revenue_yoy :=
      optDiv (optSub r.is_revenues (shiftInGroup grp (fun x => x.is_revenues) 4 k))
        (shiftInGroup grp (fun x => x.is_revenues) 4 k),
    growth_revenue_qoq :=
      optDiv (optSub r.is_revenues (shiftInGroup grp (fun x => x.is_revenues) 1 k))
        (shiftInGroup grp (fun x => x.is_revenues) 1 k),
    growth_net_income_yoy :=
      optDiv
        (optSub r.is_net_income_loss
          (shiftInGroup grp (fun x => x.is_net_income_loss) 4 k))
        (optAbs (shiftInGroup grp (fun x => x.is_net_income_loss) 4 k)),
    growth_assets_yoy :=
      optDiv (optSub r.bs_assets (shiftInGroup grp (fun x => x.bs_assets) 4 k))
        (shiftInGroup grp (fun x => x.bs_assets) 4 k) }

/-- Walk the frame in order; each row's group index is the number of
earlier rows with the same ticker (`seen` is the processed prefix), its
group is all rows of its ticker in frame order (`all`) — exactly
Polars `.over('ticker')` window semantics. -/
def calcGrowthAux (all : List GRow) (seen : List GRow) :
    List GRow → List GRowOut
  | [] => []
  | r :: rest =>
    growthOfGroup (all.filter fun x => decide (x.ticker = r.ticker))
      ((seen.filter fun x => decide (x.ticker = r.ticker)).length) r
      :: calcGrowthAux all (seen ++ [r]) rest

/-- `FundamentalsFlattener._calculate_growth_rates`: sort by
`(ticker, filing_date)`, then attach the shifted-window growth
columns. -/
def calcGrowthRates (rows : List GRow) : List GRowOut :=
  calcGrowthAux (sortLe gRowLe rows) [] (sortLe gRowLe rows)

/-! ## `FundamentalsSchemaExtractor` (extract_fundamental_schemas.py)

One scanned parquet file contributes its schema: the list of
`(column name, dtype string)` pairs from `zip(df.columns, df.dtypes)`.
`column_stats` is the accumulated per-column occurrence counter and
dtype set (a `defaultdict` keyed by column name). -/

abbrev FileSchema := List (String × String)

abbrev StatMap := List (String × Nat × List String)

/-- `column_stats[col]['count'] += 1; column_stats[col]['dtypes'].add(dt)`
(lines 128-131): bump the first entry for `c`, creating it if absent;
the dtype set is kept as a duplicate-free list in first-seen order. -/
def bumpStat (m : StatMap) (c dt : String) : StatMap :=
  match m with
  | [] => [(c, 1, [dt])]
  | (c0, n, ds) :: rest =>
    if c0 = c then (c0, n + 1, if dt ∈ ds then ds else ds ++ [dt]) :: rest
    else (c0, n, ds) :: bumpStat rest c dt

/-- The accumulated `column_stats` after scanning every file of one
statement type. -/
def statsOfCorpus (files : List FileSchema) : StatMap :=
  files.foldl (fun m f => f.foldl (fun m2 p => bumpStat m2 p.1 p.2) m) []

/-- `column_stats[c]` with the defaultdict default `(0, ∅)`. -/
def lookupStat (m : StatMap) (c : String) : Nat × List String :=
  match m with
  | [] => (0, [])
  | (c0, n, ds) :: rest => if c0 = c then (n, ds) else lookupStat rest c

/-- One entry of the unified schema (lines 180-187).  The JSON also
carries `occurrence_pct`, a display percentage rounded to one decimal;
it is derived from `occurrence_count / files_scanned` and read by
nothing, so it is not modelled. -/
structure ColumnInfo where
  name : String
  occurrence_count : Nat
  dtypes : List String
  primary_dtype : String
  is_common : Bool
deriving DecidableEq

/-- Line 186: `is_common = count > files_scanned * 0.5`.  `0.5` is an
exact dyadic float and `count`, `files_scanned` are exact in float, so
the Python comparison is exactly `2 * count > files_scanned`.
Line 178: `primary_dtype = dtypes_list[0] if len(dtypes_list) == 1 else
'Mixed'`. -/
def mkColumnInfo (files_scanned : Nat) (stats : StatMap) (c : String) :
    ColumnInfo :=
  let st := lookupStat stats c
  { name := c,
    occurrence_count := st.1,
    dtypes := sortLe strLe st.2,
    primary_dtype := if st.2.length = 1 then st.2.headD "" else "Mixed",
    is_common := decide (2 * st.1 > files_scanned) }

/-- The `columns` list of `_generate_unified_schema` for one statement
type: one `ColumnInfo` per name in `sorted(unique_columns)`, then
(stably) re-sorted by occurrence count descending (line 190). -/
def unifiedColumns (files : List FileSchema) : List ColumnInfo :=
  let stats := statsOfCorpus files
  sortLe (fun a b => decide (b.occurrence_count ≤ a.occurrence_count))
    ((sortLe strLe ((files.flatMap fun f => f.map Prod.fst).dedup)).map
      (mkColumnInfo files.length stats))

/-- Total number of `(c, _)` schema entries across the corpus — what
the scanning loop adds to `column_stats[c]['count']`. -/
def countOccs (files : List FileSchema) (c : String) : Nat :=
  (files.map fun f => (f.filter fun p => decide (p.1 = c)).length).sum

/-! ## Store lemmas -/

/-- Number of files stored at a path. -/
def entriesAt (s : Store) (p : DirPath) : Nat :=
  (s.filter (fun e => decide (e.1 = p))).length

/-! ## Claim C8: schema discovery -/

/-- A three-file corpus: `assets` occurs in 2 of 3 files with one
dtype, `mix` occurs in 2 files with two distinct dtypes, `rare` in 1. -/
def c8_files : List FileSchema :=
  [[("assets", "Float64"), ("mix", "Int64")],
   [("assets", "Float64"), ("mix", "Float64")],
   [("rare", "Int64")]]

/-! ## Claim C7: growth-rate lookback -/

/-- Four rows of one ticker, revenues left null (the lookback nulls are
what the witness exercises). -/
def c7_rows : List GRow :=
  [{ ticker := "A", filing_date := "2024-02-01", is_revenues := none,
     is_net_income_loss := none, bs_assets := none },
   { ticker := "A", filing_date := "2024-05-01", is_revenues := none,
     is_net_income_loss := none, bs_assets := none },
   { ticker := "A", filing_date := "2024-08-01", is_revenues := none,
     is_net_income_loss := none, bs_assets := none },
   { ticker := "A", filing_date := "2024-11-01", is_revenues := none,
     is_net_income_loss := none, bs_assets := none }]

/-- A one-row wide frame: net income 1.0, equity 0.0. -/
def c5_df : Table PFloat :=
  { cols := ["is_net_income_loss", "bs_equity"],
    rows := [[some (PFloat.fin 1), some (PFloat.fin 0)]] }

/-! ## Claim C3: ledger entries under retries -/

/-- Two ingestion attempts for the same partition key
`(stocks_daily, 2024-01-05, no symbol, bronze)`: a failure, then a retry. -/
def c3_store1 : Store :=
  recordIngestion emptyStore "stocks_daily" "2024-01-05" "failed" { } none
    (some "timeout") "bronze" "t1"

def c3_store2 : Store :=
  recordIngestion c3_store1 "stocks_daily" "2024-01-05" "success" { } none none
    "bronze" "t2"

/-! ## Claims C6 and C10: the statistics summary -/

/-- Count of records with a given status (`sum(1 for r in records if
r['status'] == st)`). -/
def countStatus (recs : List LedgerRecord) (st : String) : Nat :=
  (recs.filter (fun r => decide (r.status = st))).length

/-- A store with 8 success, 2 skipped entries for `stocks_daily`. -/
def c6_store : Store :=
  let dates := ["2024-01-01", "2024-01-02", "2024-01-03", "2024-01-04",
                "2024-01-05", "2024-01-08", "2024-01-09", "2024-01-10"]
  let s0 := dates.foldl
    (fun acc d => recordIngestion acc "stocks_daily" d "success" { } none none "bronze" "t")
    emptyStore
  let s1 := recordIngestion s0 "stocks_daily" "2024-01-11" "skipped" { } none none "bronze" "t"
  recordIngestion s1 "stocks_daily" "2024-01-12" "skipped" { } none none "bronze" "t"

/-! ## Claim C4: the watermark-skip loop -/

/-- Store holding one bronze success for 2024-01-05, so the watermark
for `stocks_daily` is `2024-01-05`. -/
def c4_store : Store :=
  recordIngestion emptyStore "stocks_daily" "2024-01-05" "success" { } none none
    "bronze" "t0"

/-- An ingestor oracle that would succeed on any date (never consulted
for a skipped unit). -/
def c4_ingest : String → Option IngestResult :=
  fun _ => some { status := "success" }

/-- A store with one bronze success record, used by the C10 witness. -/
def c10_store : Store :=
  recordIngestion emptyStore "stocks_daily" "2024-01-02" "success" { } none none
    "bronze" "t0"

/-! ## Claim C1: the watermark round trip

The claim quantifies over interleaved sequences of `set_watermark`
calls, successful `record_ingestion` calls and failed units.  The
sequences are embedded as lists of operations for a fixed
`(data_type, symbol := none, layer)`. -/

/-- One operation of a C1 scenario: a success ledger entry, a failed
ledger entry, or a `set_watermark` call, each carrying its date and the
wall-clock timestamp of the call. -/
inductive WOp
  | recS (date ts : String)
  | recF (date ts : String)
  | setW (date ts : String)
deriving DecidableEq

def applyWOp (data_type layer : String) (s : Store) : WOp → Store
  | WOp.recS d ts => recordIngestion s data_type d "success" { } none none layer ts
  | WOp.recF d ts =>
    recordIngestion s data_type d "failed" { } none (some "error") layer ts
  | WOp.setW d ts => setWatermark s data_type d none layer ts

/-- The ledger record a successful C1 operation writes. -/
def successRecord (data_type layer d ts : String) : LedgerRecord :=
  { data_type := data_type, date := d, symbol := none, status := "success",
    layer := layer, timestamp := ts, statistics := { }, error := none }

/-- The ledger record a failed C1 operation writes. -/
def failedRecord (data_type layer d ts : String) : LedgerRecord :=
  { data_type := data_type, date := d, symbol := none, status := "failed",
    layer := layer, timestamp := ts, statistics := { }, error := some "error" }

def applyWOps (data_type layer : String) (s : Store) (ops : List WOp) : Store :=
  ops.foldl (applyWOp data_type layer) s

/-- The dates of the successful `record_ingestion` calls of a scenario. -/
def successDates (ops : List WOp) : List String :=
  ops.filterMap fun op =>
    match op with
    | WOp.recS d _ => some d
    | _ => none

/-- The dates of the failed units of a scenario. -/
def failedDates (ops : List WOp) : List String :=
  ops.filterMap fun op =>
    match op with
    | WOp.recF d _ => some d
    | _ => none

/-- Python `max(dates)` (`none` on an empty list). -/
def maxDateStr (l : List String) : Option String :=
  match l with
  | [] => none
  | h :: t => some (t.foldl (fun best d => if strLt best d then d else best) h)

/-- A date is admissible as a ledger date when its file name does not
accidentally contain the substring `watermark` (such a file would be
skipped by `list_ingestions` line 179). -/
def dateNameOk (d : String) : Bool := ! containsSub "watermark" (d ++ ".json")

/-- Shape invariant of stores built by C1 scenarios: every ledger entry
sits at the metadata path determined by its own date, every watermark
document at the watermark path. -/
def ShapeOK (data_type layer : String) (e : DirPath × MetaFile) : Prop :=
  match e.2 with
  | MetaFile.watermark _ => e.1 = watermarkFilePath data_type none layer
  | MetaFile.ledger r =>
    e.1 = metadataFilePath data_type r.date none layer ∧ r.symbol = none

def StoreInv (data_type layer : String) (s : Store) : Prop :=
  ∀ e ∈ s, ShapeOK data_type layer e

/-- The store has a `status='success'` ledger record with date `d`
visible to `get_watermark`'s query. -/
def hasSuccessDate (data_type layer : String) (s : Store) (d : String) : Prop :=
  ∃ r ∈ listIngestions s data_type none none (some "success") (some layer),
    r.date = d

/-! ## Claim C2: the multi-source merge -/

/-- Natural key 1 of the C2 scenario (ticker T, fiscal 2024 Q1). -/
def c2_k1 : List (Option String) :=
  [some "T", some "2024-05-01", some "2024", some "Q1"]

/-- Natural key 2 (fiscal 2024 Q2). -/
def c2_k2 : List (Option String) :=
  [some "T", some "2024-08-01", some "2024", some "Q2"]

/-- Natural key 3 (fiscal 2024 Q3). -/
def c2_k3 : List (Option String) :=
  [some "T", some "2024-11-01", some "2024", some "Q3"]

/-- Flattened balance sheets: keys {1, 2}. -/
def c2_A : Table String :=
  { cols := fundamentalsKeyCols ++ ["bs_assets"],
    rows := [c2_k1 ++ [some "100"], c2_k2 ++ [some "200"]] }

/-- Flattened income statements: keys {2, 3}. -/
def c2_B : Table String :=
  { cols := fundamentalsKeyCols ++ ["is_revenues"],
    rows := [c2_k2 ++ [some "20"], c2_k3 ++ [some "30"]] }

/-- Flattened cash flow: keys {1, 3}. -/
def c2_C : Table String :=
  { cols := fundamentalsKeyCols ++ ["cf_net_cash_flow"],
    rows := [c2_k1 ++ [some "1"], c2_k3 ++ [some "3"]] }

/-- The table `_flatten_ticker`'s merge produces on A, B, C. -/
def c2_merged : Table String :=
  (mergeStatements (some c2_A) (some c2_B) (some c2_C)).getD
    { cols := [], rows := [] }

/-- The store after one successful `set_watermark` call on the empty
metadata root. -/
def c1_set_store : Store :=
  setWatermark emptyStore "stocks_daily" "2024-01-02" none "bronze" "t0"

/-- A concrete C1 scenario: successes on 2024-01-02 and 2024-01-04, a
failed unit on 2024-01-03, and two `set_watermark` calls interleaved. -/
def c1_ops : List WOp :=
  [WOp.recS "2024-01-02" "t1", WOp.setW "2024-01-02" "t2",
   WOp.recF "2024-01-03" "t3", WOp.recS "2024-01-04" "t4",
   WOp.setW "2024-01-04" "t5"]

/-! ### C9: write_partitioned_silver (corporate_actions_silver_optimized.py) -/

/-- A calendar date as stored in the polars Date column event_date. -/
structure CADate where
  y : Nat
  m : Nat
  d : Nat
deriving DecidableEq

/-- Date comparison, lexicographic on (year, month, day). -/
def caDateLe (a b : CADate) : Bool :=
  if a.y = b.y then
    if a.m = b.m then decide (a.d ≤ b.d) else decide (a.m < b.m)
  else decide (a.y < b.y)

/-- One row of the combined corporate-actions table: the two partitioning
dimensions ticker and event_type, the sort key event_date, and the
remaining event columns kept opaque as payload. -/
structure CARow where
  ticker : String
  event_type : String
  event_date : CADate
  payload : String
deriving DecidableEq

/-- One row after the with_columns block of write_partitioned_silver: the
original row plus processed_at and the calendar fields year, quarter and
month derived from event_date. -/
structure CAOutRow where
  row : CARow
  processed_at : String
  year : Nat
  quarter : Nat
  month : Nat
deriving DecidableEq

/-- Polars dt.quarter(): months 1-3 give 1, 4-6 give 2, 7-9 give 3 and
10-12 give 4. -/
def caQuarter (dt : CADate) : Nat := (dt.m + 2) / 3

/-- The with_columns block of write_partitioned_silver: attach the
processed_at timestamp and the year, quarter and month of event_date. -/
def augmentCARow (now : String) (r : CARow) : CAOutRow :=
  { row := r, processed_at := now, year := r.event_date.y,
    quarter := caQuarter r.event_date, month := r.event_date.m }

/-- The filter selecting one partition: rows whose ticker and event_type
both equal the current combination. -/
def partRows (df : List CARow) (c : String × String) : List CARow :=
  df.filter fun r => decide (r.ticker = c.1) && decide (r.event_type = c.2)

/-- select of ticker and event_type followed by unique(): the distinct
(ticker, event_type) combinations present in df, in first-occurrence
order. -/
def combosOf (df : List CARow) : List (String × String) :=
  (df.map fun r => (r.ticker, r.event_type)).dedup

/-- Output path of one partition relative to silver_path: the directory
components ticker=X and event_type=Y followed by the file name
data.parquet. -/
def partitionPath (ticker etype : String) : List String :=
  ["ticker=" ++ ticker, "event_type=" ++ etype, "data.parquet"]

/-- The row order produced by sorting on event_date with descending=True:
a row precedes another when its event_date is the later one. -/
def caDescLe (a b : CARow) : Bool := caDateLe b.event_date a.event_date

/-- Model of write_partitioned_silver: for each distinct
(ticker, event_type) combination present, filter the table to that
combination, sort by event_date descending, attach the
processing-metadata columns and write the rows to data.parquet under
ticker=X/event_type=Y. The returned list collects the (path, contents)
pairs written, one per iteration of the partition loop. -/
def writePartitionedSilver (df : List CARow) (now : String) :
    List (List String × List CAOutRow) :=
  (combosOf df).map fun c =>
    (partitionPath c.1 c.2,
      (sortLe caDescLe (partRows df c)).map (augmentCARow now))

/-- Input table for the C9 witness: two combinations over three rows. -/
def c9_df : List CARow :=
  [⟨"AAPL", "dividend", ⟨2024, 5, 10⟩, "cash"⟩,
   ⟨"AAPL", "dividend", ⟨2024, 8, 10⟩, "cash"⟩,
   ⟨"MSFT", "split", ⟨2023, 6, 1⟩, "2:1"⟩]

/-! ## Lemmas and claim theorems -/

theorem charToNat_inj {a b : Char} (h : a.toNat = b.toNat) : a = b :=
  Char.eq_of_val_eq (UInt32.ext h)

theorem lexLe_refl (l : List Char) : lexLe l l = true := by
  induction l with
  | nil => rfl
  | cons a as ih => simp [lexLe, ih]

theorem lexLe_total (a b : List Char) : lexLe a b = true ∨ lexLe b a = true := by
  induction a generalizing b with
  | nil => left; rfl
  | cons x xs ih =>
    cases b with
    | nil => right; rfl
    | cons y ys =>
      rcases Nat.lt_trichotomy x.toNat y.toNat with h | h | h
      · left; simp [lexLe, h]
      · rcases ih ys with h2 | h2
        · left; simp [lexLe, h, h2]
        · right; simp [lexLe, h, h2]
      · right; simp [lexLe, h, Nat.lt_asymm h]

theorem lexLe_antisymm {a b : List Char} (h1 : lexLe a b = true)
    (h2 : lexLe b a = true) : a = b := by
  induction a generalizing b with
  | nil =>
    cases b with
    | nil => rfl
    | cons y ys => simp [lexLe] at h2
  | cons x xs ih =>
    cases b with
    | nil => simp [lexLe] at h1
    | cons y ys =>
      rcases Nat.lt_trichotomy x.toNat y.toNat with h | h | h
      · simp [lexLe, h, Nat.lt_asymm h] at h2
      · simp [lexLe, h] at h1 h2
        rw [charToNat_inj h, ih h1 h2]
      · simp [lexLe, h, Nat.lt_asymm h] at h1

theorem lexLe_trans {a b c : List Char} (h1 : lexLe a b = true)
    (h2 : lexLe b c = true) : lexLe a c = true := by
  induction a generalizing b c with
  | nil => rfl
  | cons x xs ih =>
    cases b with
    | nil => simp [lexLe] at h1
    | cons y ys =>
      cases c with
      | nil => simp [lexLe] at h2
      | cons z zs =>
        by_cases hxy : x.toNat < y.toNat
        · by_cases hyz : y.toNat < z.toNat
          · simp [lexLe, Nat.lt_trans hxy hyz]
          · by_cases hzy : z.toNat < y.toNat
            · simp [lexLe, hyz, hzy] at h2
            · have heq : y.toNat = z.toNat := by omega
              simp [lexLe, heq ▸ hxy]
        · by_cases hyx : y.toNat < x.toNat
          · simp [lexLe, hxy, hyx] at h1
          · have hxyeq : x.toNat = y.toNat := by omega
            by_cases hyz : y.toNat < z.toNat
            · simp [lexLe, hxyeq ▸ hyz]
            · by_cases hzy : z.toNat < y.toNat
              · simp [lexLe, hyz, hzy] at h2
              · have hyzeq : y.toNat = z.toNat := by omega
                simp [lexLe, hxy, hyx] at h1
                simp [lexLe, hyz, hzy] at h2
                simp [lexLe, hxyeq ▸ hyz, hxyeq ▸ hzy]
                exact ih h1 h2

theorem string_ext {s t : String} (h : s.data = t.data) : s = t := by
  cases s; cases t; simp_all

theorem strLe_refl (s : String) : strLe s s = true := lexLe_refl s.data

theorem strLe_total (a b : String) : strLe a b = true ∨ strLe b a = true :=
  lexLe_total a.data b.data

theorem strLe_antisymm {a b : String} (h1 : strLe a b = true)
    (h2 : strLe b a = true) : a = b :=
  string_ext (lexLe_antisymm h1 h2)

theorem strLe_trans {a b c : String} (h1 : strLe a b = true)
    (h2 : strLe b c = true) : strLe a c = true :=
  lexLe_trans h1 h2

theorem strLe_of_strLt {a b : String} (h : strLt a b = true) : strLe a b = true := by
  rcases strLe_total a b with h2 | h2
  · exact h2
  · simp [strLt, h2] at h

theorem insertLe_perm (le : α → α → Bool) (x : α) (l : List α) :
    (insertLe le x l).Perm (x :: l) := by
  induction l with
  | nil => exact List.Perm.refl _
  | cons y ys ih =>
    by_cases h : le y x = true
    · simp only [insertLe, h, if_true]
      exact (ih.cons y).trans (List.Perm.swap x y ys)
    · simp only [insertLe, h, if_false]
      exact List.Perm.refl _

theorem sortLe_perm (le : α → α → Bool) (l : List α) :
    (sortLe le l).Perm l := by
  induction l with
  | nil => exact List.Perm.refl _
  | cons x xs ih => exact (insertLe_perm le x (sortLe le xs)).trans (ih.cons x)

theorem mem_sortLe (le : α → α → Bool) (l : List α) (a : α) :
    a ∈ sortLe le l ↔ a ∈ l :=
  (sortLe_perm le l).mem_iff

theorem insertLe_sorted (le : α → α → Bool)
    (htot : ∀ a b, le a b = true ∨ le b a = true)
    (htrans : ∀ a b c, le a b = true → le b c = true → le a c = true)
    (x : α) (l : List α)
    (h : List.Sorted (fun a b => le a b = true) l) :
    List.Sorted (fun a b => le a b = true) (insertLe le x l) := by
  induction l with
  | nil => simp [insertLe]
  | cons y ys ih =>
    by_cases hle : le y x = true
    · simp only [insertLe, hle, if_true]
      rw [List.sorted_cons] at h ⊢
      refine ⟨?_, ih h.2⟩
      intro b hb
      rcases List.mem_cons.mp ((insertLe_perm le x ys).mem_iff.mp hb) with hb | hb
      · exact hb ▸ hle
      · exact h.1 b hb
    · have hle2 : le y x = false := by simpa using hle
      simp only [insertLe, hle2, Bool.false_eq_true, if_false]
      have hcons := h
      rw [List.sorted_cons] at h
      rw [List.sorted_cons]
      have hxy : le x y = true := by
        rcases htot x y with h2 | h2
        · exact h2
        · exact absurd h2 (by simpa using hle)
      refine ⟨?_, hcons⟩
      intro b hb
      rcases List.mem_cons.mp hb with hb | hb
      · exact hb ▸ hxy
      · exact htrans x y b hxy (h.1 b hb)

theorem sortLe_sorted (le : α → α → Bool)
    (htot : ∀ a b, le a b = true ∨ le b a = true)
    (htrans : ∀ a b c, le a b = true → le b c = true → le a c = true)
    (l : List α) :
    List.Sorted (fun a b => le a b = true) (sortLe le l) := by
  induction l with
  | nil => simp [sortLe]
  | cons x xs ih => exact insertLe_sorted le htot htrans x (sortLe le xs) ih

theorem fsWrite_fsWrite (s : Store) (p : DirPath) (f1 f2 : MetaFile) :
    fsWrite (fsWrite s p f1) p f2 = fsWrite s p f2 := by
  unfold fsWrite
  rw [List.filter_append, List.filter_filter]
  simp

theorem entriesAt_fsWrite_self (s : Store) (p : DirPath) (f : MetaFile) :
    entriesAt (fsWrite s p f) p = 1 := by
  unfold entriesAt fsWrite
  rw [List.filter_append, List.filter_filter]
  simp

theorem fsLookup_fsWrite_self (s : Store) (p : DirPath) (f : MetaFile) :
    fsLookup (fsWrite s p f) p = some f := by
  unfold fsLookup fsWrite
  rw [List.find?_append]
  have h : List.find? (fun e => decide (e.1 = p))
      (s.filter (fun e => decide (e.1 ≠ p))) = none := by
    rw [List.find?_eq_none]
    intro e he
    have := (List.mem_filter.mp he).2
    simp_all
  rw [h]
  simp

theorem find?_filter_of_imp (l : List α) (pr f : α → Bool)
    (h : ∀ a, pr a = true → f a = true) :
    List.find? pr (l.filter f) = List.find? pr l := by
  induction l with
  | nil => rfl
  | cons a as ih =>
    by_cases hf : f a = true
    · rw [List.filter_cons_of_pos hf, List.find?_cons, List.find?_cons]
      cases hpr : pr a
      · simp [ih]
      · simp
    · rw [List.filter_cons_of_neg (by simpa using hf), List.find?_cons]
      cases hpr : pr a
      · simp [ih]
      · exact absurd (h a hpr) hf

theorem fsLookup_fsWrite_other (s : Store) (p q : DirPath) (f : MetaFile)
    (h : q ≠ p) : fsLookup (fsWrite s p f) q = fsLookup s q := by
  unfold fsLookup fsWrite
  rw [List.find?_append]
  have h2 : List.find? (fun e => decide (e.1 = q)) [(p, f)] = none := by
    simp [List.find?, (by simpa using h.symm : ¬ p = q)]
  rw [h2]
  rw [find?_filter_of_imp s _ _ (by
    intro a ha
    simp only [decide_eq_true_eq] at ha ⊢
    exact fun hp => h (ha ▸ hp ▸ rfl))]
  cases List.find? (fun e => decide (e.1 = q)) s <;> simp

/-! ## Table lemmas -/

theorem zip_self_map (l : List β) (f : β → γ) :
    l.zip (l.map f) = l.map fun x => (x, f x) := by
  induction l with
  | nil => rfl
  | cons x xs ih => simp [ih]

theorem getD_map_lt (l : List β) (f : β → γ) (i : Nat) (h : i < l.length)
    (d : γ) (d' : β) : (l.map f).getD i d = f (l.getD i d') := by
  rw [List.getD_eq_getElem?_getD, List.getElem?_map,
    List.getElem?_eq_getElem h, List.getD_eq_getElem l d' h]
  rfl

theorem getD_mem_of_lt (l : List β) (i : Nat) (h : i < l.length) (d : β) :
    l.getD i d ∈ l := by
  rw [List.getD_eq_getElem l d h]
  exact List.getElem_mem h

theorem getD_append_own_length (r : List γ) (v d : γ) :
    (r ++ [v]).getD r.length d = v := by
  induction r with
  | nil => rfl
  | cons x xs ih =>
    simp only [List.cons_append, List.length_cons, List.getD_cons_succ]
    exact ih

theorem getD_append_lt (r s : List γ) (j : Nat) (h : j < r.length) (d : γ) :
    (r ++ s).getD j d = r.getD j d := by
  induction r generalizing j with
  | nil => simp at h
  | cons x xs ih =>
    cases j with
    | zero => rfl
    | succ j2 =>
      simp only [List.cons_append, List.getD_cons_succ]
      exact ih j2 (by simpa using h)

theorem colIdx_append_left {c : String} {l1 l2 : List String} (h : c ∈ l1) :
    colIdx (l1 ++ l2) c = colIdx l1 c := by
  induction l1 with
  | nil => simp at h
  | cons x xs ih =>
    by_cases hx : x = c
    · simp [colIdx, hx]
    · have hmem : c ∈ xs := by
        rcases List.mem_cons.mp h with h2 | h2
        · exact absurd h2.symm hx
        · exact h2
      simp [colIdx, hx, ih hmem]

theorem colIdx_append_of_not_mem {c : String} {l1 l2 : List String} (h : c ∉ l1) :
    colIdx (l1 ++ l2) c = (colIdx l2 c).map (· + l1.length) := by
  induction l1 with
  | nil => cases h2 : colIdx l2 c <;> simp [h2]
  | cons x xs ih =>
    have hx : ¬ x = c := fun hx => h (hx ▸ List.mem_cons_self x xs)
    have hxs : c ∉ xs := fun hm => h (List.mem_cons_of_mem x hm)
    simp only [List.cons_append, colIdx, hx, if_false, List.append_eq]
    rw [ih hxs]
    cases h2 : colIdx l2 c with
    | none => simp
    | some j =>
      simp only [Option.map_some', List.length_cons, Option.some.injEq]
      omega

theorem colIdx_lt_length {c : String} {l : List String} {j : Nat}
    (h : colIdx l c = some j) : j < l.length := by
  induction l generalizing j with
  | nil => simp [colIdx] at h
  | cons x xs ih =>
    by_cases hx : x = c
    · simp only [colIdx, if_pos hx, Option.some.injEq] at h
      simp only [List.length_cons]
      omega
    · simp only [colIdx, if_neg hx] at h
      cases h2 : colIdx xs c with
      | none => rw [h2] at h; simp at h
      | some j2 =>
        rw [h2] at h
        simp only [Option.map_some', Option.some.injEq] at h
        have := ih h2
        simp only [List.length_cons]
        omega

theorem colIdx_self_append {c : String} {l : List String} (h : c ∉ l) :
    colIdx (l ++ [c]) c = some l.length := by
  rw [colIdx_append_of_not_mem h]
  simp [colIdx]

theorem colIdx_isSome_of_mem {c : String} {l : List String} (h : c ∈ l) :
    ∃ j, colIdx l c = some j := by
  induction l with
  | nil => simp at h
  | cons x xs ih =>
    by_cases hx : x = c
    · exact ⟨0, by simp [colIdx, hx]⟩
    · have hmem : c ∈ xs := by
        rcases List.mem_cons.mp h with h2 | h2
        · exact absurd h2.symm hx
        · exact h2
      obtain ⟨j, hj⟩ := ih hmem
      exact ⟨j + 1, by simp [colIdx, hx, hj]⟩

theorem addDerived_true_rows (t : Table PFloat) (guard : Bool) (oc : String)
    (g : List (Option PFloat) → Option PFloat) (hoc : oc ∉ t.cols)
    (hg : guard = true) :
    addDerived t guard oc g
      = { cols := t.cols ++ [oc], rows := t.rows.map fun r => r ++ [g r] } := by
  simp only [addDerived, hg, if_true, withColumn, hoc, if_false, zip_self_map,
    List.map_map]
  rfl

theorem addDerived_sim (t : Table PFloat) (guard : Bool) (oc : String)
    (g : List (Option PFloat) → Option PFloat) (hW : Wide t) (hoc : oc ∉ t.cols) :
    Wide (addDerived t guard oc g)
    ∧ (addDerived t guard oc g).rows.length = t.rows.length
    ∧ (∀ x ∈ (addDerived t guard oc g).cols, x ∈ t.cols ∨ x = oc)
    ∧ ∀ c ∈ t.cols, c ∈ (addDerived t guard oc g).cols
        ∧ ∀ i, i < t.rows.length →
          getCell (addDerived t guard oc g) ((addDerived t guard oc g).rows.getD i []) c
            = getCell t (t.rows.getD i []) c := by
  cases hg : guard
  · have heq : addDerived t false oc g = t := by simp [addDerived]
    rw [heq]
    exact ⟨hW, rfl, fun x hx => Or.inl hx, fun c hc => ⟨hc, fun i _ => rfl⟩⟩
  · rw [addDerived_true_rows t true oc g hoc rfl]
    refine ⟨?_, by simp, ?_, ?_⟩
    · intro r hr
      simp only [List.mem_map] at hr
      obtain ⟨r0, hr0, hr0eq⟩ := hr
      simp [← hr0eq, hW r0 hr0]
    · intro x hx
      simp only [List.mem_append, List.mem_singleton] at hx
      exact hx
    · intro c hc
      refine ⟨by simp [hc], ?_⟩
      intro i hi
      obtain ⟨j, hj⟩ := colIdx_isSome_of_mem hc
      have hjlt : j < t.cols.length := colIdx_lt_length hj
      have hrow : (t.rows.map fun r => r ++ [g r]).getD i []
          = (t.rows.getD i []) ++ [g (t.rows.getD i [])] :=
        getD_map_lt t.rows _ i hi [] []
      have hr0len : (t.rows.getD i []).length = t.cols.length :=
        hW _ (getD_mem_of_lt t.rows i hi [])
      show (match colIdx (t.cols ++ [oc]) c with
        | none => none
        | some j => _) = _
      rw [colIdx_append_left hc, hj, hrow]
      show ((t.rows.getD i []) ++ [g (t.rows.getD i [])]).getD j none
        = getCell t (t.rows.getD i []) c
      rw [getD_append_lt _ _ j (by omega)]
      show _ = (match colIdx t.cols c with
        | none => none
        | some j => (t.rows.getD i []).getD j none)
      rw [hj]

theorem addDerived_cell (t : Table PFloat) (guard : Bool) (oc : String)
    (g : List (Option PFloat) → Option PFloat) (hW : Wide t) (hoc : oc ∉ t.cols)
    (hg : guard = true) (i : Nat) (hi : i < t.rows.length) :
    getCell (addDerived t guard oc g) ((addDerived t guard oc g).rows.getD i []) oc
      = g (t.rows.getD i []) := by
  rw [addDerived_true_rows t guard oc g hoc hg]
  have hrow : (t.rows.map fun r => r ++ [g r]).getD i []
      = (t.rows.getD i []) ++ [g (t.rows.getD i [])] :=
    getD_map_lt t.rows _ i hi [] []
  have hr0len : (t.rows.getD i []).length = t.cols.length :=
    hW _ (getD_mem_of_lt t.rows i hi [])
  show (match colIdx (t.cols ++ [oc]) oc with
    | none => none
    | some j => ((t.rows.map fun r => r ++ [g r]).getD i []).getD j none) = _
  rw [colIdx_self_append hoc, hrow]
  show ((t.rows.getD i []) ++ [g (t.rows.getD i [])]).getD t.cols.length none = _
  rw [← hr0len, getD_append_own_length]

theorem addDerived_col_mem (t : Table PFloat) (guard : Bool) (oc : String)
    (g : List (Option PFloat) → Option PFloat) (hoc : oc ∉ t.cols)
    (hg : guard = true) : oc ∈ (addDerived t guard oc g).cols := by
  rw [addDerived_true_rows t guard oc g hoc hg]
  simp

theorem ratioBlock_sim (df t : Table PFloat) (nc dc oc : String)
    (hW : Wide t) (hoc : oc ∉ t.cols) :
    Wide (ratioBlock df t nc dc oc)
    ∧ (ratioBlock df t nc dc oc).rows.length = t.rows.length
    ∧ (∀ x ∈ (ratioBlock df t nc dc oc).cols, x ∈ t.cols ∨ x = oc)
    ∧ ∀ c ∈ t.cols, c ∈ (ratioBlock df t nc dc oc).cols
        ∧ ∀ i, i < t.rows.length →
          getCell (ratioBlock df t nc dc oc) ((ratioBlock df t nc dc oc).rows.getD i []) c
            = getCell t (t.rows.getD i []) c :=
  addDerived_sim t _ oc _ hW hoc

theorem quickBlock_sim (df t : Table PFloat)
    (hW : Wide t) (hoc : "ratio_quick" ∉ t.cols) :
    Wide (quickBlock df t)
    ∧ (quickBlock df t).rows.length = t.rows.length
    ∧ (∀ x ∈ (quickBlock df t).cols, x ∈ t.cols ∨ x = "ratio_quick")
    ∧ ∀ c ∈ t.cols, c ∈ (quickBlock df t).cols
        ∧ ∀ i, i < t.rows.length →
          getCell (quickBlock df t) ((quickBlock df t).rows.getD i []) c
            = getCell t (t.rows.getD i []) c :=
  addDerived_sim t _ "ratio_quick" _ hW hoc

theorem ratioBlock_cell (df t : Table PFloat) (nc dc oc : String)
    (hW : Wide t) (hoc : oc ∉ t.cols) (hnc : nc ∈ df.cols) (hdc : dc ∈ df.cols)
    (i : Nat) (hi : i < t.rows.length) :
    getCell (ratioBlock df t nc dc oc) ((ratioBlock df t nc dc oc).rows.getD i []) oc
      = optDiv (getCell t (t.rows.getD i []) nc) (getCell t (t.rows.getD i []) dc) :=
  addDerived_cell t _ oc _ hW hoc (by simp [hnc, hdc]) i hi

/-- Claim C5, amended.  Each ratio column of
`_calculate_financial_ratios` is the plain Polars elementwise division
of its operand columns.  The true half of the claim: the ratio is null
whenever the numerator or the denominator cell is null, and the
computation is total (never a division error).  The corrected half:
when the denominator is exactly `0.0` and the numerator is non-null the
result is *not* null — it is `+∞` or `−∞` for a non-zero numerator and
`NaN` for `0.0 / 0.0`, exactly IEEE float division.  Stated for
`ratio_roe = is_net_income_loss / bs_equity`, the claim's own example,
over any wide frame whose columns do not already contain ratio names. -/
theorem c5_ratio_null_safety (df : Table PFloat) (hW : Wide df)
    (hratio : ∀ c ∈ ratioNames, c ∉ df.cols)
    (hnum : "is_net_income_loss" ∈ df.cols) (hden : "bs_equity" ∈ df.cols) :
    (∀ i, i < df.rows.length →
      getCell (calcFinancialRatios df) ((calcFinancialRatios df).rows.getD i [])
          "ratio_roe"
        = optDiv (getCell df (df.rows.getD i []) "is_net_income_loss")
            (getCell df (df.rows.getD i []) "bs_equity"))
    ∧ (∀ x, optDiv none x = none)
    ∧ (∀ x, optDiv x none = none)
    ∧ (∀ q : ℚ, q ≠ 0 → optDiv (some (PFloat.fin q)) (some (PFloat.fin 0))
        = some (if 0 < q then PFloat.pinf else PFloat.ninf))
    ∧ optDiv (some (PFloat.fin 0)) (some (PFloat.fin 0)) = some PFloat.nan
    ∧ ∀ q : ℚ, optDiv (some (PFloat.fin q)) (some (PFloat.fin 0)) ≠ none := by
  refine ⟨?_, fun x => rfl, fun x => by cases x <;> rfl, ?_, rfl, fun q => by simp [optDiv]⟩
  · intro i hi
    have hmemN : ∀ nm ∈ ratioNames, nm ∉ df.cols := hratio
    have hroe : "ratio_roe" ∉ df.cols := hmemN _ (by decide)
    unfold calcFinancialRatios
    set t1 := ratioBlock df df "is_net_income_loss" "bs_equity" "ratio_roe" with ht1
    obtain ⟨W1, L1, U1, S1⟩ :=
      ratioBlock_sim df df "is_net_income_loss" "bs_equity" "ratio_roe" hW hroe
    have cell1 : getCell t1 (t1.rows.getD i []) "ratio_roe"
        = optDiv (getCell df (df.rows.getD i []) "is_net_income_loss")
            (getCell df (df.rows.getD i []) "bs_equity") :=
      ratioBlock_cell df df "is_net_income_loss" "bs_equity" "ratio_roe"
        hW hroe hnum hden i hi
    have M1 : "ratio_roe" ∈ t1.cols :=
      addDerived_col_mem df _ "ratio_roe" _ hroe (by simp [hnum, hden])
    have hoc2 : "ratio_roa" ∉ t1.cols := by
      intro hmem
      rcases U1 _ hmem with h | h
      · exact hmemN "ratio_roa" (by decide) h
      · exact absurd h (by decide)
    set t2 := ratioBlock df t1 "is_net_income_loss" "bs_assets" "ratio_roa" with ht2
    obtain ⟨W2, L2, U2, S2⟩ :=
      ratioBlock_sim df t1 "is_net_income_loss" "bs_assets" "ratio_roa" W1 hoc2
    have hil2 : i < t1.rows.length := by rw [L1]; exact hi
    have cell2 : getCell t2 (t2.rows.getD i []) "ratio_roe"
        = getCell t1 (t1.rows.getD i []) "ratio_roe" := (S2 _ M1).2 i hil2
    have M2 : "ratio_roe" ∈ t2.cols := (S2 _ M1).1
    have sub2 : ∀ x ∈ t2.cols, x ∈ df.cols ∨ x = "ratio_roe" ∨ x = "ratio_roa" := by
      intro x hx
      rcases U2 x hx with h | h
      · rcases U1 x h with h2 | h2
        · exact Or.inl h2
        · exact Or.inr (Or.inl h2)
      · exact Or.inr (Or.inr h)
    have hoc3 : "ratio_profit_margin" ∉ t2.cols := by
      intro hmem
      rcases sub2 _ hmem with h | h | h
      · exact hmemN "ratio_profit_margin" (by decide) h
      · exact absurd h (by decide)
      · exact absurd h (by decide)
    set t3 := ratioBlock df t2 "is_net_income_loss" "is_revenues"
      "ratio_profit_margin" with ht3
    obtain ⟨W3, L3, U3, S3⟩ :=
      ratioBlock_sim df t2 "is_net_income_loss" "is_revenues"
        "ratio_profit_margin" W2 hoc3
    have hil3 : i < t2.rows.length := by rw [L2]; exact hil2
    have cell3 : getCell t3 (t3.rows.getD i []) "ratio_roe"
        = getCell t2 (t2.rows.getD i []) "ratio_roe" := (S3 _ M2).2 i hil3
    have M3 : "ratio_roe" ∈ t3.cols := (S3 _ M2).1
    have sub3 : ∀ x ∈ t3.cols, x ∈ df.cols ∨ x = "ratio_roe" ∨ x = "ratio_roa"
        ∨ x = "ratio_profit_margin" := by
      intro x hx
      rcases U3 x hx with h | h
      · rcases sub2 x h with h2 | h2 | h2
        · exact Or.inl h2
        · exact Or.inr (Or.inl h2)
        · exact Or.inr (Or.inr (Or.inl h2))
      · exact Or.inr (Or.inr (Or.inr h))
    have hoc4 : "ratio_operating_margin" ∉ t3.cols := by
      intro hmem
      rcases sub3 _ hmem with h | h | h | h
      · exact hmemN "ratio_operating_margin" (by decide) h
      · exact absurd h (by decide)
      · exact absurd h (by decide)
      · exact absurd h (by decide)
    set t4 := ratioBlock df t3 "is_operating_income_loss" "is_revenues"
      "ratio_operating_margin" with ht4
    obtain ⟨W4, L4, U4, S4⟩ :=
      ratioBlock_sim df t3 "is_operating_income_loss" "is_revenues"
        "ratio_operating_margin" W3 hoc4
    have hil4 : i < t3.rows.length := by rw [L3]; exact hil3
    have cell4 : getCell t4 (t4.rows.getD i []) "ratio_roe"
        = getCell t3 (t3.rows.getD i []) "ratio_roe" := (S4 _ M3).2 i hil4
    have M4 : "ratio_roe" ∈ t4.cols := (S4 _ M3).1
    have sub4 : ∀ x ∈ t4.cols, x ∈ df.cols ∨ x = "ratio_roe" ∨ x = "ratio_roa"
        ∨ x = "ratio_profit_margin" ∨ x = "ratio_operating_margin" := by
      intro x hx
      rcases U4 x hx with h | h
      · rcases sub3 x h with h2 | h2 | h2 | h2
        · exact Or.inl h2
        · exact Or.inr (Or.inl h2)
        · exact Or.inr (Or.inr (Or.inl h2))
        · exact Or.inr (Or.inr (Or.inr (Or.inl h2)))
      · exact Or.inr (Or.inr (Or.inr (Or.inr h)))
    have hoc5 : "ratio_current" ∉ t4.cols := by
      intro hmem
      rcases sub4 _ hmem with h | h | h | h | h
      · exact hmemN "ratio_current" (by decide) h
      all_goals exact absurd h (by decide)
    set t5 := ratioBlock df t4 "bs_current_assets" "bs_current_liabilities"
      "ratio_current" with ht5
    obtain ⟨W5, L5, U5, S5⟩ :=
      ratioBlock_sim df t4 "bs_current_assets" "bs_current_liabilities"
        "ratio_current" W4 hoc5
    have hil5 : i < t4.rows.length := by rw [L4]; exact hil4
    have cell5 : getCell t5 (t5.rows.getD i []) "ratio_roe"
        = getCell t4 (t4.rows.getD i []) "ratio_roe" := (S5 _ M4).2 i hil5
    have M5 : "ratio_roe" ∈ t5.cols := (S5 _ M4).1
    have sub5 : ∀ x ∈ t5.cols, x ∈ df.cols ∨ x = "ratio_roe" ∨ x = "ratio_roa"
        ∨ x = "ratio_profit_margin" ∨ x = "ratio_operating_margin"
        ∨ x = "ratio_current" := by
      intro x hx
      rcases U5 x hx with h | h
      · rcases sub4 x h with h2 | h2 | h2 | h2 | h2
        · exact Or.inl h2
        · exact Or.inr (Or.inl h2)
        · exact Or.inr (Or.inr (Or.inl h2))
        · exact Or.inr (Or.inr (Or.inr (Or.inl h2)))
        · exact Or.inr (Or.inr (Or.inr (Or.inr (Or.inl h2))))
      · exact Or.inr (Or.inr (Or.inr (Or.inr (Or.inr h))))
    have hoc6 : "ratio_quick" ∉ t5.cols := by
      intro hmem
      rcases sub5 _ hmem with h | h | h | h | h | h
      · exact hmemN "ratio_quick" (by decide) h
      all_goals exact absurd h (by decide)
    set t6 := quickBlock df t5 with ht6
    obtain ⟨W6, L6, U6, S6⟩ := quickBlock_sim df t5 W5 hoc6
    have hil6 : i < t5.rows.length := by rw [L5]; exact hil5
    have cell6 : getCell t6 (t6.rows.getD i []) "ratio_roe"
        = getCell t5 (t5.rows.getD i []) "ratio_roe" := (S6 _ M5).2 i hil6
    have M6 : "ratio_roe" ∈ t6.cols := (S6 _ M5).1
    have sub6 : ∀ x ∈ t6.cols, x ∈ df.cols ∨ x = "ratio_roe" ∨ x = "ratio_roa"
        ∨ x = "ratio_profit_margin" ∨ x = "ratio_operating_margin"
        ∨ x = "ratio_current" ∨ x = "ratio_quick" := by
      intro x hx
      rcases U6 x hx with h | h
      · rcases sub5 x h with h2 | h2 | h2 | h2 | h2 | h2
        · exact Or.inl h2
        · exact Or.inr (Or.inl h2)
        · exact Or.inr (Or.inr (Or.inl h2))
        · exact Or.inr (Or.inr (Or.inr (Or.inl h2)))
        · exact Or.inr (Or.inr (Or.inr (Or.inr (Or.inl h2))))
        · exact Or.inr (Or.inr (Or.inr (Or.inr (Or.inr (Or.inl h2)))))
      · exact Or.inr (Or.inr (Or.inr (Or.inr (Or.inr (Or.inr h)))))
    have hoc7 : "ratio_debt_to_equity" ∉ t6.cols := by
      intro hmem
      rcases sub6 _ hmem with h | h | h | h | h | h | h
      · exact hmemN "ratio_debt_to_equity" (by decide) h
      all_goals exact absurd h (by decide)
    set t7 := ratioBlock df t6 "bs_liabilities" "bs_equity"
      "ratio_debt_to_equity" with ht7
    obtain ⟨W7, L7, U7, S7⟩ :=
      ratioBlock_sim df t6 "bs_liabilities" "bs_equity"
        "ratio_debt_to_equity" W6 hoc7
    have hil7 : i < t6.rows.length := by rw [L6]; exact hil6
    have cell7 : getCell t7 (t7.rows.getD i []) "ratio_roe"
        = getCell t6 (t6.rows.getD i []) "ratio_roe" := (S7 _ M6).2 i hil7
    have M7 : "ratio_roe" ∈ t7.cols := (S7 _ M6).1
    have sub7 : ∀ x ∈ t7.cols, x ∈ df.cols ∨ x = "ratio_roe" ∨ x = "ratio_roa"
        ∨ x = "ratio_profit_margin" ∨ x = "ratio_operating_margin"
        ∨ x = "ratio_current" ∨ x = "ratio_quick"
        ∨ x = "ratio_debt_to_equity" := by
      intro x hx
      rcases U7 x hx with h | h
      · rcases sub6 x h with h2 | h2 | h2 | h2 | h2 | h2 | h2
        · exact Or.inl h2
        · exact Or.inr (Or.inl h2)
        · exact Or.inr (Or.inr (Or.inl h2))
        · exact Or.inr (Or.inr (Or.inr (Or.inl h2)))
        · exact Or.inr (Or.inr (Or.inr (Or.inr (Or.inl h2))))
        · exact Or.inr (Or.inr (Or.inr (Or.inr (Or.inr (Or.inl h2)))))
        · exact Or.inr (Or.inr (Or.inr (Or.inr (Or.inr (Or.inr (Or.inl h2))))))
      · exact Or.inr (Or.inr (Or.inr (Or.inr (Or.inr (Or.inr (Or.inr h))))))
    have hoc8 : "ratio_debt_to_assets" ∉ t7.cols := by
      intro hmem
      rcases sub7 _ hmem with h | h | h | h | h | h | h | h
      · exact hmemN "ratio_debt_to_assets" (by decide) h
      all_goals exact absurd h (by decide)
    obtain ⟨W8, L8, U8, S8⟩ :=
      ratioBlock_sim df t7 "bs_liabilities" "bs_assets"
        "ratio_debt_to_assets" W7 hoc8
    have hil8 : i < t7.rows.length := by rw [L7]; exact hil7
    have cell8 : getCell
        (ratioBlock df t7 "bs_liabilities" "bs_assets" "ratio_debt_to_assets")
        ((ratioBlock df t7 "bs_liabilities" "bs_assets"
          "ratio_debt_to_assets").rows.getD i []) "ratio_roe"
        = getCell t7 (t7.rows.getD i []) "ratio_roe" := (S8 _ M7).2 i hil8
    rw [cell8, cell7, cell6, cell5, cell4, cell3, cell2, cell1]
  · intro q hq
    simp [optDiv, pfDiv, hq]

theorem lookupStat_bumpStat_count (m : StatMap) (c0 dt c : String) :
    (lookupStat (bumpStat m c0 dt) c).1
      = (lookupStat m c).1 + (if c0 = c then 1 else 0) := by
  induction m with
  | nil => by_cases h : c0 = c <;> simp [bumpStat, lookupStat, h]
  | cons e rest ih =>
    obtain ⟨c1, n, ds⟩ := e
    by_cases h1 : c1 = c0
    · by_cases h2 : c1 = c
      · have hc : c0 = c := h1 ▸ h2
        simp [bumpStat, lookupStat, h1, h2, hc]
      · have hc : ¬ c0 = c := fun hcc => h2 (h1 ▸ hcc)
        simp [bumpStat, lookupStat, h1, h2, hc]
    · by_cases h2 : c1 = c
      · have hc : ¬ c0 = c := fun hcc => h1 (by rw [h2, hcc])
        have hcc0 : ¬ c = c0 := fun hh => hc hh.symm
        simp [bumpStat, lookupStat, h1, h2, hc, hcc0]
      · simp [bumpStat, lookupStat, h1, h2, ih]

theorem lookupStat_bumpStat_dtypes (m : StatMap) (c0 dt0 c dt : String) :
    (dt ∈ (lookupStat (bumpStat m c0 dt0) c).2
    ↔ dt ∈ (lookupStat m c).2 ∨ (c0 = c ∧ dt = dt0)) := by
  induction m with
  | nil =>
    by_cases h : c0 = c
    · simp [bumpStat, lookupStat, h]
    · simp [bumpStat, lookupStat, h]
  | cons e rest ih =>
    obtain ⟨c1, n, ds⟩ := e
    by_cases h1 : c1 = c0
    · by_cases h2 : c1 = c
      · have hc : c0 = c := h1 ▸ h2
        by_cases hd : dt0 ∈ ds
        · simp [bumpStat, lookupStat, h1, h2, hc, hd]
          intro hdt
          rw [hdt]
          exact hd
        · simp [bumpStat, lookupStat, h1, h2, hc, hd]
      · have hc : ¬ c0 = c := fun hcc => h2 (h1 ▸ hcc)
        simp [bumpStat, lookupStat, h1, h2, hc]
    · by_cases h2 : c1 = c
      · have hc : ¬ c0 = c := fun hcc => h1 (by rw [h2, hcc])
        have hcc0 : ¬ c = c0 := fun hh => hc hh.symm
        simp [bumpStat, lookupStat, h1, h2, hc, hcc0]
      · simp [bumpStat, lookupStat, h1, h2, ih]

theorem lookupStat_bumpStat_nodup (m : StatMap) (c0 dt0 c : String)
    (h : ((lookupStat m c).2).Nodup) :
    ((lookupStat (bumpStat m c0 dt0) c).2).Nodup := by
  induction m with
  | nil =>
    by_cases hc : c0 = c <;> simp [bumpStat, lookupStat, hc]
  | cons e rest ih =>
    obtain ⟨c1, n, ds⟩ := e
    by_cases h1 : c1 = c0
    · by_cases h2 : c1 = c
      · have hc : c0 = c := h1.symm.trans h2
        simp only [lookupStat, if_pos h2] at h
        by_cases hd : dt0 ∈ ds
        · simp [bumpStat, lookupStat, h1, h2, hc, hd, h]
        · simp [bumpStat, lookupStat, h1, h2, hc, hd, List.nodup_append, h]
      · have hc : ¬ c0 = c := fun hcc => h2 (h1.trans hcc)
        simp only [lookupStat, if_neg h2] at h
        simp [bumpStat, lookupStat, h1, h2, hc, h]
    · by_cases h2 : c1 = c
      · have hc : ¬ c0 = c := fun hcc => h1 (by rw [h2, hcc])
        have hcc0 : ¬ c = c0 := fun hh => hc hh.symm
        simp only [lookupStat, if_pos h2] at h
        simp [bumpStat, lookupStat, h1, h2, hcc0, h]
      · simp only [lookupStat, if_neg h2] at h
        simp [bumpStat, lookupStat, h1, h2, ih h]

theorem count_foldl_pairs (ps : List (String × String)) (m : StatMap)
    (c : String) :
    (lookupStat (ps.foldl (fun m2 p => bumpStat m2 p.1 p.2) m) c).1
      = (lookupStat m c).1 + (ps.filter fun p => decide (p.1 = c)).length := by
  induction ps generalizing m with
  | nil => simp
  | cons p ps ih =>
    rw [List.foldl_cons, ih, lookupStat_bumpStat_count, List.filter_cons]
    by_cases h : p.1 = c
    · simp [h]
      omega
    · simp [h]

theorem dtypes_foldl_pairs (ps : List (String × String)) (m : StatMap)
    (c dt : String) :
    (dt ∈ (lookupStat (ps.foldl (fun m2 p => bumpStat m2 p.1 p.2) m) c).2
    ↔ dt ∈ (lookupStat m c).2 ∨ ∃ p ∈ ps, p.1 = c ∧ p.2 = dt) := by
  induction ps generalizing m with
  | nil => simp
  | cons p ps ih =>
    rw [List.foldl_cons, ih, lookupStat_bumpStat_dtypes]
    constructor
    · rintro ((h | h) | h)
      · exact Or.inl h
      · exact Or.inr ⟨p, List.mem_cons_self p ps, h.1, h.2.symm⟩
      · obtain ⟨q, hq, hq1, hq2⟩ := h
        exact Or.inr ⟨q, List.mem_cons_of_mem p hq, hq1, hq2⟩
    · rintro (h | ⟨q, hq, hq1, hq2⟩)
      · exact Or.inl (Or.inl h)
      · rcases List.mem_cons.mp hq with hq3 | hq3
        · exact Or.inl (Or.inr ⟨hq3 ▸ hq1, (hq3 ▸ hq2 : q.2 = dt).symm ▸ (hq3 ▸ rfl)⟩)
        · exact Or.inr ⟨q, hq3, hq1, hq2⟩

theorem nodup_foldl_pairs (ps : List (String × String)) (m : StatMap)
    (c : String) (h : ((lookupStat m c).2).Nodup) :
    ((lookupStat (ps.foldl (fun m2 p => bumpStat m2 p.1 p.2) m) c).2).Nodup := by
  induction ps generalizing m with
  | nil => exact h
  | cons p ps ih =>
    rw [List.foldl_cons]
    exact ih _ (lookupStat_bumpStat_nodup m p.1 p.2 c h)

theorem count_foldl_files (files : List FileSchema) (m : StatMap) (c : String) :
    (lookupStat (files.foldl (fun m f => f.foldl (fun m2 p => bumpStat m2 p.1 p.2) m) m) c).1
      = (lookupStat m c).1 + countOccs files c := by
  induction files generalizing m with
  | nil => simp [countOccs]
  | cons f fs ih =>
    rw [List.foldl_cons, ih, count_foldl_pairs]
    simp [countOccs]
    omega

theorem statsOfCorpus_count (files : List FileSchema) (c : String) :
    (lookupStat (statsOfCorpus files) c).1 = countOccs files c := by
  rw [statsOfCorpus, count_foldl_files]
  simp [lookupStat]

theorem dtypes_foldl_files (files : List FileSchema) (m : StatMap)
    (c dt : String) :
    (dt ∈ (lookupStat (files.foldl (fun m f => f.foldl (fun m2 p => bumpStat m2 p.1 p.2) m) m) c).2
    ↔ dt ∈ (lookupStat m c).2 ∨ ∃ f ∈ files, (c, dt) ∈ f) := by
  induction files generalizing m with
  | nil => simp
  | cons f fs ih =>
    rw [List.foldl_cons, ih, dtypes_foldl_pairs]
    constructor
    · rintro ((h | ⟨p, hp, hp1, hp2⟩) | ⟨g, hg, hgm⟩)
      · exact Or.inl h
      · refine Or.inr ⟨f, List.mem_cons_self f fs, ?_⟩
        have : p = (c, dt) := by
          obtain ⟨p1, p2⟩ := p
          simp at hp1 hp2
          rw [hp1, hp2]
        exact this ▸ hp
      · exact Or.inr ⟨g, List.mem_cons_of_mem f hg, hgm⟩
    · rintro (h | ⟨g, hg, hgm⟩)
      · exact Or.inl (Or.inl h)
      · rcases List.mem_cons.mp hg with hg2 | hg2
        · exact Or.inl (Or.inr ⟨(c, dt), hg2 ▸ hgm, rfl, rfl⟩)
        · exact Or.inr ⟨g, hg2, hgm⟩

theorem statsOfCorpus_dtypes (files : List FileSchema) (c dt : String) :
    (dt ∈ (lookupStat (statsOfCorpus files) c).2
    ↔ ∃ f ∈ files, (c, dt) ∈ f) := by
  rw [statsOfCorpus, dtypes_foldl_files]
  simp [lookupStat]

theorem nodup_foldl_files (files : List FileSchema) (m : StatMap) (c : String)
    (h : ((lookupStat m c).2).Nodup) :
    ((lookupStat (files.foldl (fun m f => f.foldl (fun m2 p => bumpStat m2 p.1 p.2) m) m) c).2).Nodup := by
  induction files generalizing m with
  | nil => exact h
  | cons f fs ih =>
    rw [List.foldl_cons]
    exact ih _ (nodup_foldl_pairs f m c h)

theorem statsOfCorpus_nodup (files : List FileSchema) (c : String) :
    ((lookupStat (statsOfCorpus files) c).2).Nodup :=
  nodup_foldl_files files [] c (by simp [lookupStat])

/-- Claim C8 (confirmed).  For every column of the unified schema:
`occurrence_count` is the number of scanned files carrying the column
(counting one per schema entry); `is_common` is true exactly when the
occurrence count exceeds 50% of the files scanned for that statement
type; the `dtypes` set is exactly the set of dtypes observed for the
column; and `primary_dtype` is the single observed dtype when exactly
one distinct dtype was seen, and the literal marker `"Mixed"` when more
than one distinct dtype was observed. -/
theorem c8_schema_discovery (files : List FileSchema) (info : ColumnInfo)
    (h : info ∈ unifiedColumns files) :
    info.occurrence_count = countOccs files info.name
    ∧ (info.is_common = true ↔ 2 * countOccs files info.name > files.length)
    ∧ (∀ dt, dt ∈ info.dtypes ↔ ∃ f ∈ files, (info.name, dt) ∈ f)
    ∧ info.dtypes.Nodup
    ∧ (info.dtypes.length = 1 → info.primary_dtype ∈ info.dtypes)
    ∧ (2 ≤ info.dtypes.length → info.primary_dtype = "Mixed") := by
  rw [unifiedColumns, mem_sortLe] at h
  obtain ⟨c, hcmem, hinfo⟩ := List.mem_map.mp h
  subst hinfo
  have hname : (mkColumnInfo files.length (statsOfCorpus files) c).name = c := rfl
  have hcount : (mkColumnInfo files.length (statsOfCorpus files) c).occurrence_count
      = (lookupStat (statsOfCorpus files) c).1 := rfl
  have hdts : (mkColumnInfo files.length (statsOfCorpus files) c).dtypes
      = sortLe strLe (lookupStat (statsOfCorpus files) c).2 := rfl
  have hlen : (mkColumnInfo files.length (statsOfCorpus files) c).dtypes.length
      = (lookupStat (statsOfCorpus files) c).2.length := by
    rw [hdts]
    exact (sortLe_perm strLe _).length_eq
  refine ⟨?_, ?_, ?_, ?_, ?_, ?_⟩
  · rw [hname, hcount, statsOfCorpus_count]
  · rw [hname]
    have : (mkColumnInfo files.length (statsOfCorpus files) c).is_common
        = decide (2 * (lookupStat (statsOfCorpus files) c).1 > files.length) := rfl
    rw [this, decide_eq_true_iff, statsOfCorpus_count]
  · intro dt
    rw [hname, hdts, mem_sortLe]
    exact statsOfCorpus_dtypes files c dt
  · rw [hdts]
    exact ((sortLe_perm strLe _).nodup_iff).mpr (statsOfCorpus_nodup files c)
  · intro h1
    rw [hlen] at h1
    obtain ⟨d, hd⟩ := List.length_eq_one.mp h1
    have : (mkColumnInfo files.length (statsOfCorpus files) c).primary_dtype
        = (lookupStat (statsOfCorpus files) c).2.headD "" := by
      show (if (lookupStat (statsOfCorpus files) c).2.length = 1
        then (lookupStat (statsOfCorpus files) c).2.headD "" else "Mixed") = _
      rw [if_pos h1]
    rw [this, hdts, mem_sortLe, hd]
    simp
  · intro h2
    rw [hlen] at h2
    show (if (lookupStat (statsOfCorpus files) c).2.length = 1
      then (lookupStat (statsOfCorpus files) c).2.headD "" else "Mixed") = "Mixed"
    rw [if_neg (by omega)]

/-- Witness for C8: on the concrete corpus, `assets` (2 of 3 files) is
common with a single dtype, and `mix` has two observed dtypes and
primary dtype `"Mixed"`. -/
theorem c8_schema_discovery_witness :
    (mkColumnInfo 3 (statsOfCorpus c8_files) "assets") ∈ unifiedColumns c8_files
    ∧ (mkColumnInfo 3 (statsOfCorpus c8_files) "assets").is_common = true
    ∧ (mkColumnInfo 3 (statsOfCorpus c8_files) "mix") ∈ unifiedColumns c8_files
    ∧ 2 ≤ (mkColumnInfo 3 (statsOfCorpus c8_files) "mix").dtypes.length
    ∧ (mkColumnInfo 3 (statsOfCorpus c8_files) "mix").primary_dtype = "Mixed" := by
  refine ⟨by decide, ?_, by decide, by decide, ?_⟩
  · exact (c8_schema_discovery c8_files _ (by decide)).2.1.mpr (by decide)
  · exact (c8_schema_discovery c8_files _ (by decide)).2.2.2.2.2 (by decide)

theorem optDiv_none_right (x : Option PFloat) : optDiv x none = none := by
  cases x <;> rfl

theorem optSub_none_right (x : Option PFloat) : optSub x none = none := by
  cases x <;> rfl

theorem mapIdx_congr {l : List β} {f g : Nat → β → γ}
    (h : ∀ i a, f i a = g i a) : l.mapIdx f = l.mapIdx g := by
  induction l generalizing f g with
  | nil => rfl
  | cons a as ih =>
    rw [List.mapIdx_cons, List.mapIdx_cons, h 0 a]
    rw [ih (fun i a => h (i + 1) a)]

theorem mem_mapIdx_imp {l : List β} {f : Nat → β → γ} {o : γ}
    (h : o ∈ l.mapIdx f) : ∃ k r, k < l.length ∧ r ∈ l ∧ o = f k r := by
  induction l generalizing f with
  | nil => simp at h
  | cons a as ih =>
    rw [List.mapIdx_cons] at h
    rcases List.mem_cons.mp h with h2 | h2
    · exact ⟨0, a, by simp, List.mem_cons_self a as, h2⟩
    · obtain ⟨k, r, hk, hr, ho⟩ := ih h2
      exact ⟨k + 1, r, by simpa using hk, List.mem_cons_of_mem a hr, ho⟩

theorem calcGrowthAux_filter (all : List GRow) (t : String)
    (l : List GRow) : ∀ seen : List GRow,
    (calcGrowthAux all seen l).filter (fun o => decide (o.base.ticker = t))
    = (l.filter fun x => decide (x.ticker = t)).mapIdx
        (fun k r => growthOfGroup (all.filter fun x => decide (x.ticker = t))
          ((seen.filter fun x => decide (x.ticker = t)).length + k) r) := by
  induction l with
  | nil => intro seen; rfl
  | cons r rest ih =>
    intro seen
    have hbase : ∀ (g : List GRow) (n : Nat), (growthOfGroup g n r).base = r :=
      fun g n => rfl
    by_cases hrt : r.ticker = t
    · simp only [calcGrowthAux, List.filter_cons, hbase, hrt, decide_True,
        if_true, List.mapIdx_cons]
      rw [ih (seen ++ [r])]
      congr 1
      exact mapIdx_congr fun i a => by
        have hlen2 : ((seen ++ [r]).filter fun x => decide (x.ticker = t)).length
            = (seen.filter fun x => decide (x.ticker = t)).length + 1 := by
          rw [List.filter_append]
          simp [hrt]
        have harith : (seen.filter fun x => decide (x.ticker = t)).length + 1 + i
            = (seen.filter fun x => decide (x.ticker = t)).length + (i + 1) := by
          omega
        rw [hlen2, harith]
    · have hrtf : (decide (r.ticker = t)) = false := by
        simp [hrt]
      simp only [calcGrowthAux, List.filter_cons, hbase, hrtf,
        Bool.false_eq_true, if_false]
      rw [ih (seen ++ [r])]
      have hlen2 : ((seen ++ [r]).filter fun x => decide (x.ticker = t)).length
          = (seen.filter fun x => decide (x.ticker = t)).length := by
        rw [List.filter_append]
        simp [hrt]
      rw [hlen2]

/-- Claim C7 (confirmed).  `_calculate_growth_rates` computes growth per
ticker after sorting by filing date with `shift(4)` (year over year) and
`shift(1)` (quarter over quarter): the output rows of a ticker are
exactly its sorted rows decorated group-position-wise; a row at group
position `k < N` has null growth (null, not zero) for every shift-`N`
metric; a row at position `k ≥ N` gets the computed
`(value − value[k−N]) / value[k−N]` expression; hence a ticker with
exactly 4 rows has null year-over-year growth in every row (and with
exactly 1 row, null quarter-over-quarter growth). -/
theorem c7_growth_lookback (rows : List GRow) (t : String) :
    ((calcGrowthRates rows).filter fun o => decide (o.base.ticker = t))
      = (((sortLe gRowLe rows).filter fun x => decide (x.ticker = t)).mapIdx
          fun k r => growthOfGroup
            ((sortLe gRowLe rows).filter fun x => decide (x.ticker = t)) k r)
    ∧ (∀ grp : List GRow, ∀ k r, k < 4 →
        (growthOfGroup grp k r).growth_revenue_yoy = none
        ∧ (growthOfGroup grp k r).growth_net_income_yoy = none
        ∧ (growthOfGroup grp k r).growth_assets_yoy = none)
    ∧ (∀ grp : List GRow, ∀ k r, k < 1 →
        (growthOfGroup grp k r).growth_revenue_qoq = none)
    ∧ (∀ grp : List GRow, ∀ k r, 4 ≤ k →
        (growthOfGroup grp k r).growth_revenue_yoy
          = optDiv (optSub r.is_revenues (shiftInGroup grp (fun x => x.is_revenues) 4 k))
              (shiftInGroup grp (fun x => x.is_revenues) 4 k)
        ∧ shiftInGroup grp (fun x => x.is_revenues) 4 k
          = (match grp[k - 4]? with
             | some x => x.is_revenues
             | none => none))
    ∧ (((sortLe gRowLe rows).filter fun x => decide (x.ticker = t)).length = 4 →
        ∀ o ∈ (calcGrowthRates rows).filter fun o => decide (o.base.ticker = t),
          o.growth_revenue_yoy = none) := by
  have hfilter := calcGrowthAux_filter (sortLe gRowLe rows) t (sortLe gRowLe rows) []
  have hmain : ((calcGrowthRates rows).filter fun o => decide (o.base.ticker = t))
      = (((sortLe gRowLe rows).filter fun x => decide (x.ticker = t)).mapIdx
          fun k r => growthOfGroup
            ((sortLe gRowLe rows).filter fun x => decide (x.ticker = t)) k r) := by
    rw [calcGrowthRates, hfilter]
    exact mapIdx_congr (fun i a => by simp)
  have hnull4 : ∀ grp : List GRow, ∀ k r, k < 4 →
      (growthOfGroup grp k r).growth_revenue_yoy = none
      ∧ (growthOfGroup grp k r).growth_net_income_yoy = none
      ∧ (growthOfGroup grp k r).growth_assets_yoy = none := by
    intro grp k r hk
    have hsh : ∀ f, shiftInGroup grp f 4 k = none := by
      intro f
      simp [shiftInGroup, show ¬ (4 ≤ k) from by omega]
    refine ⟨?_, ?_, ?_⟩
    · simp [growthOfGroup, hsh, optSub_none_right, optDiv_none_right]
    · simp [growthOfGroup, hsh, optSub_none_right, optDiv_none_right, optAbs]
    · simp [growthOfGroup, hsh, optSub_none_right, optDiv_none_right]
  refine ⟨hmain, hnull4, ?_, ?_, ?_⟩
  · intro grp k r hk
    have hsh : ∀ f, shiftInGroup grp f 1 k = none := by
      intro f
      simp [shiftInGroup, show ¬ (1 ≤ k) from by omega]
    simp [growthOfGroup, hsh, optSub_none_right, optDiv_none_right]
  · intro grp k r hk
    exact ⟨rfl, by simp [shiftInGroup, hk]⟩
  · intro hlen o ho
    rw [hmain] at ho
    obtain ⟨k, r, hk, _, hoeq⟩ := mem_mapIdx_imp ho
    rw [hlen] at hk
    rw [hoeq]
    exact (hnull4 _ k r hk).1

/-- Witness for C7: a ticker with exactly 4 rows has null
year-over-year growth in every output row. -/
theorem c7_growth_lookback_witness :
    ((sortLe gRowLe c7_rows).filter fun x => decide (x.ticker = "A")).length = 4
    ∧ ∀ o ∈ (calcGrowthRates c7_rows).filter fun o => decide (o.base.ticker = "A"),
        o.growth_revenue_yoy = none := by
  refine ⟨by decide, ?_⟩
  exact (c7_growth_lookback c7_rows "A").2.2.2.2 (by decide)

/-- Claim C5, counterexample.  On a row with `is_net_income_loss = 1.0`
and `bs_equity = 0.0` the claim requires `ratio_roe` to be null; the
code divides Float64 columns directly, and Polars float division by
zero follows IEEE semantics, so `ratio_roe` is `+∞` — not null. -/
theorem c5_counterexample :
    getCell (calcFinancialRatios c5_df) ((calcFinancialRatios c5_df).rows.getD 0 [])
        "ratio_roe" = some PFloat.pinf
    ∧ some PFloat.pinf ≠ (none : Option PFloat)
    ∧ getCell c5_df (c5_df.rows.getD 0 []) "bs_equity" = some (PFloat.fin 0) := by
  refine ⟨by decide, by decide, by decide⟩

/-- Witness for C5: the amended theorem applied to the concrete one-row
frame of the counterexample. -/
theorem c5_ratio_null_safety_witness :
    Wide c5_df
    ∧ (∀ c ∈ ratioNames, c ∉ c5_df.cols)
    ∧ getCell (calcFinancialRatios c5_df) ((calcFinancialRatios c5_df).rows.getD 0 [])
        "ratio_roe"
      = optDiv (getCell c5_df (c5_df.rows.getD 0 []) "is_net_income_loss")
          (getCell c5_df (c5_df.rows.getD 0 []) "bs_equity") := by
  refine ⟨by unfold Wide; decide, by decide, ?_⟩
  exact (c5_ratio_null_safety c5_df (by unfold Wide; decide) (by decide) (by decide)
    (by decide)).1 0 (by decide)

/-- Claim C3, counterexample.  The claim says that after `k` ingestion
attempts for the same `(data_type, date, symbol, layer)` there exist `k`
distinct ledger entries.  In the code, `record_ingestion` writes to the
deterministic path `_get_metadata_file(data_type, date, symbol, layer)`
with `open(..., 'w')`, so the second attempt replaces the first: after
two attempts exactly one entry exists, and it is the second record — the
first attempt's entry is gone. -/
theorem c3_counterexample :
    c3_store2.length = 1 ∧ ¬ (2 : Nat) ≤ c3_store2.length ∧
    fsLookup c3_store2 (metadataFilePath "stocks_daily" "2024-01-05" none "bronze")
      = some (MetaFile.ledger
        { data_type := "stocks_daily", date := "2024-01-05", symbol := none,
          status := "success", layer := "bronze", timestamp := "t2",
          statistics := { }, error := none }) := by
  refine ⟨by decide, by decide, by decide⟩

/-- Claim C3, amended.  `record_ingestion` is keyed, not append-only: a
later call for the same partition key replaces the earlier entry in
place (the composition of two calls equals the second call alone), the
store holds exactly one entry at the partition's path, and a lookup
returns the latest attempt's record; entries at every other path are
untouched. -/
theorem c3_ledger_overwrite (s : Store) (data_type date : String)
    (st1 st2 : String) (stats1 stats2 : Stats) (symbol : Option String)
    (e1 e2 : Option String) (layer : String) (ts1 ts2 : String) :
    recordIngestion (recordIngestion s data_type date st1 stats1 symbol e1 layer ts1)
        data_type date st2 stats2 symbol e2 layer ts2
      = recordIngestion s data_type date st2 stats2 symbol e2 layer ts2
    ∧ entriesAt (recordIngestion s data_type date st2 stats2 symbol e2 layer ts2)
        (metadataFilePath data_type date symbol layer) = 1
    ∧ fsLookup (recordIngestion s data_type date st2 stats2 symbol e2 layer ts2)
        (metadataFilePath data_type date symbol layer)
      = some (MetaFile.ledger
          { data_type := data_type, date := date, symbol := symbol,
            status := st2, layer := layer, timestamp := ts2,
            statistics := stats2, error := e2 })
    ∧ ∀ q : DirPath, q ≠ metadataFilePath data_type date symbol layer →
        fsLookup (recordIngestion s data_type date st2 stats2 symbol e2 layer ts2) q
          = fsLookup s q := by
  refine ⟨fsWrite_fsWrite .., entriesAt_fsWrite_self .., fsLookup_fsWrite_self .., ?_⟩
  intro q hq
  exact fsLookup_fsWrite_other _ _ _ _ hq

theorem countStatus_cover (recs : List LedgerRecord)
    (h : ∀ r ∈ recs, r.status = "success" ∨ r.status = "skipped") :
    countStatus recs "success" + countStatus recs "skipped" = recs.length := by
  induction recs with
  | nil => rfl
  | cons r rs ih =>
    have hr := h r (List.mem_cons_self r rs)
    have hrest := ih (fun x hx => h x (List.mem_cons_of_mem r hx))
    rcases hr with hs | hs
    · have hns : ¬ (r.status = "skipped") := by rw [hs]; decide
      simp only [countStatus, List.filter_cons] at *
      simp [hs, hns, hrest]
      omega
    · have hns : ¬ (r.status = "success") := by rw [hs]; decide
      simp only [countStatus, List.filter_cons] at *
      simp [hs, hns, hrest]
      omega

/-- Claim C6 (confirmed).  In `get_statistics_summary`, skipped entries
count toward the success rate: whenever the query matches a non-empty
list of ledger records, `success_rate = (success + skipped) / total`;
in particular if every matched record is a success or a skip the rate
is exactly 1 (e.g. 8 successes + 2 skips out of 10 gives 1.0, not 0.8). -/
theorem c6_skip_accounting (s : Store) (data_type : String)
    (startDate endDate layer : Option String)
    (h : listIngestions s data_type startDate endDate none layer ≠ []) :
    (statisticsSummary s data_type startDate endDate layer).success_rate
      = some ((((countStatus (listIngestions s data_type startDate endDate none layer) "success"
          + countStatus (listIngestions s data_type startDate endDate none layer) "skipped" : Nat)) : ℚ)
        / ((listIngestions s data_type startDate endDate none layer).length : ℚ))
    ∧ ((∀ r ∈ listIngestions s data_type startDate endDate none layer,
          r.status = "success" ∨ r.status = "skipped") →
        (statisticsSummary s data_type startDate endDate layer).success_rate = some 1) := by
  cases hrec : listIngestions s data_type startDate endDate none layer with
  | nil => exact absurd hrec h
  | cons r rs =>
    constructor
    · simp only [statisticsSummary, hrec]
      have hpos : 0 < (r :: rs).length := by simp
      simp only [if_pos hpos, countStatus]
    · intro hall
      simp only [statisticsSummary, hrec]
      have hpos : 0 < (r :: rs).length := by simp
      simp only [if_pos hpos]
      have hcover := countStatus_cover (r :: rs) (hrec ▸ hall)
      simp only [countStatus] at hcover
      rw [hcover]
      congr 1
      have hlen : ((r :: rs).length : ℚ) ≠ 0 :=
        Nat.cast_ne_zero.mpr (by simp)
      exact div_self hlen

/-- Witness for C6: on the concrete 10-record store the hypotheses hold
and the rate is exactly 1. -/
theorem c6_skip_accounting_witness :
    listIngestions c6_store "stocks_daily" none none none (some "bronze") ≠ []
    ∧ (∀ r ∈ listIngestions c6_store "stocks_daily" none none none (some "bronze"),
        r.status = "success" ∨ r.status = "skipped")
    ∧ (statisticsSummary c6_store "stocks_daily" none none (some "bronze")).success_rate
        = some 1 := by
  refine ⟨by decide, by decide, ?_⟩
  exact (c6_skip_accounting c6_store "stocks_daily" none none (some "bronze")
    (by decide)).2 (by decide)

/-- Claim C10 (confirmed).  When `get_statistics_summary` matches zero
records it returns only `data_type` and zero counts — the
`success_rate`, `date_range`, `total_records` and `total_size_mb` keys
are absent — while any query matching at least one record carries all
four keys. -/
theorem c10_empty_summary_shape (s : Store) (data_type : String)
    (startDate endDate layer : Option String) :
    (listIngestions s data_type startDate endDate none layer = [] →
      statisticsSummary s data_type startDate endDate layer
        = { data_type := data_type, total_jobs := 0, success := 0, failed := 0,
            skipped := 0, success_rate := none, date_range := none,
            total_records := none, total_size_mb := none })
    ∧ (listIngestions s data_type startDate endDate none layer ≠ [] →
      (statisticsSummary s data_type startDate endDate layer).success_rate.isSome
      ∧ (statisticsSummary s data_type startDate endDate layer).date_range.isSome
      ∧ (statisticsSummary s data_type startDate endDate layer).total_records.isSome
      ∧ (statisticsSummary s data_type startDate endDate layer).total_size_mb.isSome
      ∧ (statisticsSummary s data_type startDate endDate layer).total_jobs
          = (listIngestions s data_type startDate endDate none layer).length) := by
  constructor
  · intro hrec
    simp [statisticsSummary, hrec]
  · intro hrec
    cases hrec2 : listIngestions s data_type startDate endDate none layer with
    | nil => exact absurd hrec2 hrec
    | cons r rs => simp [statisticsSummary, hrec2]

theorem landingStep_skip (data_type : String) (wm : Option String)
    (ingest : String → Option IngestResult) (now : String)
    (acc : Store × List String) (fd : String)
    (h : pyTruthy wm = true) (hle : strLe fd (wm.getD "") = true) :
    landingStep data_type true wm ingest now acc fd = acc := by
  simp [landingStep, h, hle]

theorem landingStep_io (data_type : String) (wm : Option String)
    (ingest : String → Option IngestResult) (now : String)
    (acc : Store × List String) (fd : String)
    (h : (true && pyTruthy wm && strLe fd (wm.getD "")) = false) :
    (landingStep data_type true wm ingest now acc fd).2 = acc.2 ++ [fd] := by
  simp only [landingStep, h, Bool.false_eq_true, if_false]
  cases ingest fd with
  | none => rfl
  | some res =>
    by_cases hs : (res.status = "success" || res.status = "skipped") = true
    · simp [hs]
    · simp [hs]

theorem landingFold_all_skip (data_type : String) (wm : Option String)
    (ingest : String → Option IngestResult) (now : String)
    (files : List String) (acc : Store × List String)
    (h : pyTruthy wm = true)
    (hall : ∀ fd ∈ files, strLe fd (wm.getD "") = true) :
    files.foldl (landingStep data_type true wm ingest now) acc = acc := by
  induction files generalizing acc with
  | nil => rfl
  | cons fd rest ih =>
    rw [List.foldl_cons,
      landingStep_skip data_type wm ingest now acc fd h
        (hall fd (List.mem_cons_self fd rest))]
    exact ih acc (fun x hx => hall x (List.mem_cons_of_mem fd hx))

theorem landingFold_io (data_type : String) (wm : Option String)
    (ingest : String → Option IngestResult) (now : String)
    (files : List String) (acc : Store × List String)
    (h : pyTruthy wm = true) :
    (files.foldl (landingStep data_type true wm ingest now) acc).2
      = acc.2 ++ files.filter (fun fd => ! strLe fd (wm.getD "")) := by
  induction files generalizing acc with
  | nil => simp
  | cons fd rest ih =>
    rw [List.foldl_cons]
    by_cases hle : strLe fd (wm.getD "") = true
    · rw [landingStep_skip data_type wm ingest now acc fd h hle, ih acc,
        List.filter_cons]
      simp [hle]
    · have hle2 : strLe fd (wm.getD "") = false := by simpa using hle
      rw [ih (landingStep data_type true wm ingest now acc fd),
        landingStep_io data_type wm ingest now acc fd (by simp [h, hle2]),
        List.filter_cons]
      simp [hle2]

/-- Claim C4, amended.  In incremental mode a candidate unit whose key
is ≤ the current watermark is skipped without performing any I/O on the
unit, and — contrary to the original claim — no ledger entry of any
kind is recorded for it: the loop `continue`s before touching the store,
so a run whose units all fall at or below the watermark returns the
store unchanged; the units actually opened are exactly those above the
watermark. -/
theorem c4_watermark_skip (s : Store) (data_type : String)
    (files : List String) (ingest : String → Option IngestResult)
    (now : String) (w : String)
    (hwm : getWatermark s data_type none "bronze" = some w) (hw : w ≠ "") :
    (processLandingToBronze s data_type files true ingest now).2
      = files.filter (fun fd => ! strLe fd w)
    ∧ ((∀ fd ∈ files, strLe fd w = true) →
      processLandingToBronze s data_type files true ingest now = (s, [])) := by
  have htruthy : pyTruthy (some w) = true := by
    simp [pyTruthy, hw]
  constructor
  · show (files.foldl (landingStep data_type true
        (if true then getWatermark s data_type none "bronze" else none)
        ingest now) (s, [])).2 = _
    rw [if_pos rfl, hwm]
    rw [landingFold_io data_type (some w) ingest now files (s, []) htruthy]
    simp
  · intro hall
    show files.foldl (landingStep data_type true
        (if true then getWatermark s data_type none "bronze" else none)
        ingest now) (s, []) = (s, [])
    rw [if_pos rfl, hwm]
    exact landingFold_all_skip data_type (some w) ingest now files (s, []) htruthy
      (by simpa using hall)

/-- Claim C4, counterexample.  Running the incremental loop over one
landing file dated 2024-01-03, below the 2024-01-05 watermark: the unit
is skipped with no I/O (second component `[]`), but the store is
returned *unchanged* — no ledger entry at all exists for 2024-01-03, so
no `skipped` entry was recorded, contradicting the claim. -/
theorem c4_counterexample :
    processLandingToBronze c4_store "stocks_daily" ["2024-01-03"] true c4_ingest "t1"
      = (c4_store, [])
    ∧ (c4_store.filter (fun e =>
        match e.2 with
        | MetaFile.ledger r => decide (r.date = "2024-01-03")
        | MetaFile.watermark _ => false)) = [] := by
  refine ⟨by decide, by decide⟩

/-- Witness for C4: the amended theorem applied at the concrete store
and file list of the counterexample scenario. -/
theorem c4_watermark_skip_witness :
    getWatermark c4_store "stocks_daily" none "bronze" = some "2024-01-05"
    ∧ (∀ fd ∈ ["2024-01-03"], strLe fd "2024-01-05" = true)
    ∧ processLandingToBronze c4_store "stocks_daily" ["2024-01-03"] true c4_ingest "t1"
        = (c4_store, []) := by
  refine ⟨by decide, by decide, ?_⟩
  exact (c4_watermark_skip c4_store "stocks_daily" ["2024-01-03"] c4_ingest "t1"
    "2024-01-05" (by decide) (by decide)).2 (by decide)

theorem mem_fsWrite {s : Store} {p : DirPath} {f : MetaFile}
    {e : DirPath × MetaFile} :
    e ∈ fsWrite s p f ↔ ((e ∈ s ∧ e.1 ≠ p) ∨ e = (p, f)) := by
  unfold fsWrite
  rw [List.mem_append, List.mem_filter]
  simp

theorem mem_collectDir {s : Store} {pre : DirPath}
    {sd ed st : Option String} {r : LedgerRecord} :
    r ∈ collectDir s pre sd ed st
    ↔ ∃ p, (p, MetaFile.ledger r) ∈ s ∧ keepLedger pre sd ed st p r = true := by
  unfold collectDir
  rw [List.mem_filterMap]
  constructor
  · rintro ⟨⟨p, mf⟩, he, hsome⟩
    cases mf with
    | watermark w => simp at hsome
    | ledger r0 =>
      by_cases hk : keepLedger pre sd ed st p r0 = true
      · simp only [hk, if_true, Option.some.injEq] at hsome
        exact ⟨p, hsome ▸ he, hsome ▸ hk⟩
      · simp [hk] at hsome
  · rintro ⟨p, hin, hk⟩
    exact ⟨(p, MetaFile.ledger r), hin, by simp [hk]⟩

theorem mem_listIngestions_layer {s : Store} {data_type : String}
    {sd ed st : Option String} {l : String} {r : LedgerRecord} :
    r ∈ listIngestions s data_type sd ed st (some l)
    ↔ ∃ p, (p, MetaFile.ledger r) ∈ s
        ∧ keepLedger [l, data_type] sd ed st p r = true := by
  unfold listIngestions layerDirs
  rw [mem_sortLe]
  simp only [List.flatMap_cons, List.flatMap_nil, List.append_nil]
  exact mem_collectDir

theorem lastComponent_metadataFilePath (data_type date : String)
    (symbol : Option String) (layer : String) :
    lastComponent (metadataFilePath data_type date symbol layer)
      = ledgerFileName date symbol := rfl

theorem strEndsWith_append (a b : String) : strEndsWith (a ++ b) b = true := by
  unfold strEndsWith
  have : b.data <:+ (a ++ b).data := by
    rw [String.data_append]
    exact List.suffix_append a.data b.data
  exact List.isSuffixOf_iff_suffix.mpr this

theorem metadataFilePath_date_inj {data_type d1 d2 layer : String}
    (h : metadataFilePath data_type d1 none layer
       = metadataFilePath data_type d2 none layer) : d1 = d2 := by
  unfold metadataFilePath ledgerFileName at h
  have h5 : d1 ++ ".json" = d2 ++ ".json" := by
    injection h with _ h
    injection h with _ h
    injection h with _ h
    injection h with _ h
    injection h with h _
  have := congrArg String.data h5
  rw [String.data_append, String.data_append] at this
  exact string_ext (List.append_cancel_right this)

theorem storeInv_empty (data_type layer : String) :
    StoreInv data_type layer emptyStore := by
  intro e he
  simp [emptyStore] at he

theorem storeInv_applyWOp {data_type layer : String} {s : Store}
    (h : StoreInv data_type layer s) (op : WOp) :
    StoreInv data_type layer (applyWOp data_type layer s op) := by
  intro e he
  cases op with
  | recS d ts =>
    rcases mem_fsWrite.mp he with ⟨hin, _⟩ | heq
    · exact h e hin
    · subst heq; exact ⟨rfl, rfl⟩
  | recF d ts =>
    rcases mem_fsWrite.mp he with ⟨hin, _⟩ | heq
    · exact h e hin
    · subst heq; exact ⟨rfl, rfl⟩
  | setW d ts =>
    rcases mem_fsWrite.mp he with ⟨hin, _⟩ | heq
    · exact h e hin
    · subst heq; rfl

theorem storeInv_applyWOps {data_type layer : String} {s : Store}
    (h : StoreInv data_type layer s) (ops : List WOp) :
    StoreInv data_type layer (applyWOps data_type layer s ops) := by
  induction ops generalizing s with
  | nil => exact h
  | cons op rest ih => exact ih (storeInv_applyWOp h op)

theorem containsSub_watermark_self :
    containsSub "watermark" "watermark.json" = true := by decide

theorem keepLedger_new_success (data_type layer d : String)
    (hname : dateNameOk d = true) (r : LedgerRecord) (hstatus : r.status = "success") :
    keepLedger [layer, data_type] none none (some "success")
      (metadataFilePath data_type d none layer) r = true := by
  unfold keepLedger
  rw [lastComponent_metadataFilePath]
  have h1 : ([layer, data_type].isPrefixOf
      (metadataFilePath data_type d none layer)) = true := by
    simp [metadataFilePath, List.isPrefixOf]
  have h2 : strEndsWith (ledgerFileName d none) ".json" = true := by
    show strEndsWith (d ++ ".json") ".json" = true
    exact strEndsWith_append d ".json"
  have h3 : (! containsSub "watermark" (ledgerFileName d none)) = true := by
    exact hname
  have h4 : matchesQuery none none (some "success") r = true := by
    simp [matchesQuery, pyTruthy, hstatus]
  rw [h1, h2, h3, h4]
  rfl

theorem matchesQuery_failed (r : LedgerRecord) (h : r.status = "failed") :
    matchesQuery none none (some "success") r = false := by
  simp [matchesQuery, pyTruthy, h]

theorem hasSuccessDate_setW (data_type layer : String) (s : Store)
    (d0 ts d : String) :
    hasSuccessDate data_type layer (setWatermark s data_type d0 none layer ts) d
    ↔ hasSuccessDate data_type layer s d := by
  unfold hasSuccessDate setWatermark
  constructor
  · rintro ⟨r, hr, hdate⟩
    obtain ⟨p, hin, hk⟩ := mem_listIngestions_layer.mp hr
    rcases mem_fsWrite.mp hin with ⟨hold, _⟩ | heq
    · exact ⟨r, mem_listIngestions_layer.mpr ⟨p, hold, hk⟩, hdate⟩
    · exact absurd (congrArg Prod.snd heq) (by simp)
  · rintro ⟨r, hr, hdate⟩
    obtain ⟨p, hin, hk⟩ := mem_listIngestions_layer.mp hr
    have hne : p ≠ watermarkFilePath data_type none layer := by
      intro hp
      have hk2 := hk
      simp only [keepLedger, Bool.and_eq_true] at hk2
      have hwm := hk2.1.2
      rw [hp] at hwm
      simp [watermarkFilePath, watermarkFileName, lastComponent,
        containsSub_watermark_self] at hwm
    exact ⟨r, mem_listIngestions_layer.mpr
      ⟨p, mem_fsWrite.mpr (Or.inl ⟨hin, hne⟩), hk⟩, hdate⟩

theorem hasSuccessDate_recS (data_type layer : String) (s : Store)
    (hinv : StoreInv data_type layer s) (d0 ts d : String)
    (hname : dateNameOk d0 = true) :
    hasSuccessDate data_type layer
      (recordIngestion s data_type d0 "success" { } none none layer ts) d
    ↔ (d = d0 ∨ hasSuccessDate data_type layer s d) := by
  unfold hasSuccessDate recordIngestion
  constructor
  · rintro ⟨r, hr, hdate⟩
    obtain ⟨p, hin, hk⟩ := mem_listIngestions_layer.mp hr
    rcases mem_fsWrite.mp hin with ⟨hold, _⟩ | heq
    · exact Or.inr ⟨r, mem_listIngestions_layer.mpr ⟨p, hold, hk⟩, hdate⟩
    · left
      have hr0 : MetaFile.ledger r
          = MetaFile.ledger (successRecord data_type layer d0 ts) :=
        congrArg Prod.snd heq
      have := MetaFile.ledger.inj hr0
      rw [← hdate, this]
      rfl
  · rintro (hd | ⟨r, hr, hdate⟩)
    · refine ⟨successRecord data_type layer d0 ts, ?_, by rw [hd]; rfl⟩
      exact mem_listIngestions_layer.mpr
        ⟨metadataFilePath data_type d0 none layer,
         mem_fsWrite.mpr (Or.inr rfl),
         keepLedger_new_success data_type layer d0 hname _ rfl⟩
    · obtain ⟨p, hin, hk⟩ := mem_listIngestions_layer.mp hr
      by_cases hdd : d = d0
      · subst hdd
        refine ⟨successRecord data_type layer d ts, ?_, rfl⟩
        exact mem_listIngestions_layer.mpr
          ⟨metadataFilePath data_type d none layer,
           mem_fsWrite.mpr (Or.inr rfl),
           keepLedger_new_success data_type layer d hname _ rfl⟩
      · have hshape := hinv (p, MetaFile.ledger r) hin
        have hp : p = metadataFilePath data_type r.date none layer := hshape.1
        have hne : p ≠ metadataFilePath data_type d0 none layer := by
          rw [hp, hdate]
          intro hcontr
          exact hdd (metadataFilePath_date_inj hcontr)
        exact ⟨r, mem_listIngestions_layer.mpr
          ⟨p, mem_fsWrite.mpr (Or.inl ⟨hin, hne⟩), hk⟩, hdate⟩

theorem hasSuccessDate_recF (data_type layer : String) (s : Store)
    (hinv : StoreInv data_type layer s) (d0 ts d : String)
    (hnot : ¬ hasSuccessDate data_type layer s d0) :
    hasSuccessDate data_type layer
      (recordIngestion s data_type d0 "failed" { } none (some "error") layer ts) d
    ↔ hasSuccessDate data_type layer s d := by
  unfold hasSuccessDate recordIngestion
  constructor
  · rintro ⟨r, hr, hdate⟩
    obtain ⟨p, hin, hk⟩ := mem_listIngestions_layer.mp hr
    rcases mem_fsWrite.mp hin with ⟨hold, _⟩ | heq
    · exact ⟨r, mem_listIngestions_layer.mpr ⟨p, hold, hk⟩, hdate⟩
    · exfalso
      have hr0 : MetaFile.ledger r
          = MetaFile.ledger (failedRecord data_type layer d0 ts) :=
        congrArg Prod.snd heq
      have hreq := MetaFile.ledger.inj hr0
      have hstat : r.status = "failed" := by rw [hreq]; rfl
      simp only [keepLedger, Bool.and_eq_true] at hk
      have := hk.2
      rw [matchesQuery_failed r hstat] at this
      simp at this
  · rintro ⟨r, hr, hdate⟩
    obtain ⟨p, hin, hk⟩ := mem_listIngestions_layer.mp hr
    have hshape := hinv (p, MetaFile.ledger r) hin
    have hp : p = metadataFilePath data_type r.date none layer := hshape.1
    have hne : p ≠ metadataFilePath data_type d0 none layer := by
      rw [hp]
      intro hcontr
      have : r.date = d0 := metadataFilePath_date_inj hcontr
      exact hnot ⟨r, mem_listIngestions_layer.mpr ⟨p, hin, hk⟩, this⟩
    exact ⟨r, mem_listIngestions_layer.mpr
      ⟨p, mem_fsWrite.mpr (Or.inl ⟨hin, hne⟩), hk⟩, hdate⟩

theorem successDate_iff (data_type layer : String) (ops : List WOp)
    (h1 : ∀ d ∈ successDates ops, dateNameOk d = true)
    (h2 : ∀ d ∈ successDates ops, d ∉ failedDates ops) (d : String) :
    hasSuccessDate data_type layer (applyWOps data_type layer emptyStore ops) d
    ↔ d ∈ successDates ops := by
  revert h1 h2 d
  induction ops using List.reverseRecOn with
  | nil =>
    intro h1 h2 d
    constructor
    · rintro ⟨r, hr, _⟩
      obtain ⟨p, hin, _⟩ := mem_listIngestions_layer.mp hr
      simp [applyWOps, emptyStore] at hin
    · intro hd
      simp [successDates] at hd
  | append_singleton ops op ih =>
    intro h1 h2 d
    have hinv := storeInv_applyWOps (storeInv_empty data_type layer) ops
    have happ : applyWOps data_type layer emptyStore (ops ++ [op])
        = applyWOp data_type layer (applyWOps data_type layer emptyStore ops) op := by
      simp [applyWOps, List.foldl_append]
    have hsdapp : successDates (ops ++ [op])
        = successDates ops ++ successDates [op] := by
      simp [successDates, List.filterMap_append]
    have hfdapp : failedDates (ops ++ [op])
        = failedDates ops ++ failedDates [op] := by
      simp [failedDates, List.filterMap_append]
    have h1' : ∀ x ∈ successDates ops, dateNameOk x = true := fun x hx =>
      h1 x (by rw [hsdapp]; exact List.mem_append_left _ hx)
    have h2' : ∀ x ∈ successDates ops, x ∉ failedDates ops := by
      intro x hx hmem
      exact h2 x (by rw [hsdapp]; exact List.mem_append_left _ hx)
        (by rw [hfdapp]; exact List.mem_append_left _ hmem)
    rw [happ]
    cases op with
    | setW d0 ts =>
      simp only [applyWOp]
      rw [hasSuccessDate_setW]
      rw [ih h1' h2' d, hsdapp]
      simp [successDates]
    | recS d0 ts =>
      simp only [applyWOp]
      have hname : dateNameOk d0 = true :=
        h1 d0 (by rw [hsdapp]; exact List.mem_append_right _ (by simp [successDates]))
      rw [hasSuccessDate_recS data_type layer _ hinv d0 ts d hname]
      rw [ih h1' h2' d, hsdapp]
      simp only [successDates, List.filterMap_cons, List.filterMap_nil]
      rw [List.mem_append]
      simp only [List.mem_singleton]
      tauto
    | recF d0 ts =>
      simp only [applyWOp]
      have hnot : ¬ hasSuccessDate data_type layer
          (applyWOps data_type layer emptyStore ops) d0 := by
        rw [ih h1' h2' d0]
        intro hmem
        exact h2 d0 (by rw [hsdapp]; exact List.mem_append_left _ hmem)
          (by rw [hfdapp]
              exact List.mem_append_right _ (by simp [failedDates]))
      rw [hasSuccessDate_recF data_type layer _ hinv d0 ts d hnot]
      rw [ih h1' h2' d, hsdapp]
      simp [successDates]

theorem foldMaxRecord_spec (h : LedgerRecord) (t : List LedgerRecord) :
    (t.foldl (fun best r => if strLt best.date r.date then r else best) h) ∈ h :: t
    ∧ ∀ x ∈ h :: t, strLe x.date
        (t.foldl (fun best r => if strLt best.date r.date then r else best) h).date := by
  induction t generalizing h with
  | nil =>
    refine ⟨List.mem_cons_self h [], ?_⟩
    intro x hx
    rcases List.mem_cons.mp hx with hx | hx
    · exact hx ▸ strLe_refl h.date
    · simp at hx
  | cons r rs ih =>
    rw [List.foldl_cons]
    set h2 := if strLt h.date r.date then r else h with hh2
    obtain ⟨ihmem, ihle⟩ := ih h2
    have hmem2 : h2 ∈ h :: r :: rs := by
      rw [hh2]
      by_cases hc : strLt h.date r.date = true
      · simp [hc]
      · simp [hc]
    have hle_h : strLe h.date h2.date = true := by
      rw [hh2]
      by_cases hc : strLt h.date r.date = true
      · simp only [hc, if_true]
        exact strLe_of_strLt hc
      · simp only [hc, Bool.false_eq_true, if_false]
        exact strLe_refl h.date
    have hle_r : strLe r.date h2.date = true := by
      rw [hh2]
      by_cases hc : strLt h.date r.date = true
      · simp only [hc, if_true]
        exact strLe_refl r.date
      · simp only [hc, Bool.false_eq_true, if_false]
        have hf : (! strLe r.date h.date) = false := by simpa [strLt] using hc
        simpa using hf
    constructor
    · rcases List.mem_cons.mp ihmem with hm | hm
      · rw [hm]; exact hmem2
      · exact List.mem_cons_of_mem h (List.mem_cons_of_mem r hm)
    · intro x hx
      rcases List.mem_cons.mp hx with hx | hx
      · exact strLe_trans (hx ▸ hle_h) (ihle h2 (List.mem_cons_self h2 rs))
      · rcases List.mem_cons.mp hx with hx | hx
        · exact strLe_trans (hx ▸ hle_r) (ihle h2 (List.mem_cons_self h2 rs))
        · exact ihle x (List.mem_cons_of_mem h2 hx)

theorem foldMaxStr_spec (h : String) (t : List String) :
    (t.foldl (fun best x => if strLt best x then x else best) h) ∈ h :: t
    ∧ ∀ x ∈ h :: t, strLe x
        (t.foldl (fun best x => if strLt best x then x else best) h) = true := by
  induction t generalizing h with
  | nil =>
    refine ⟨List.mem_cons_self h [], ?_⟩
    intro x hx
    rcases List.mem_cons.mp hx with hx | hx
    · exact hx ▸ strLe_refl h
    · simp at hx
  | cons r rs ih =>
    rw [List.foldl_cons]
    set h2 := if strLt h r then r else h with hh2
    obtain ⟨ihmem, ihle⟩ := ih h2
    have hmem2 : h2 ∈ h :: r :: rs := by
      rw [hh2]
      by_cases hc : strLt h r = true
      · simp [hc]
      · simp [hc]
    have hle_h : strLe h h2 = true := by
      rw [hh2]
      by_cases hc : strLt h r = true
      · simp only [hc, if_true]
        exact strLe_of_strLt hc
      · simp only [hc, Bool.false_eq_true, if_false]
        exact strLe_refl h
    have hle_r : strLe r h2 = true := by
      rw [hh2]
      by_cases hc : strLt h r = true
      · simp only [hc, if_true]
        exact strLe_refl r
      · simp only [hc, Bool.false_eq_true, if_false]
        have hf : (! strLe r h) = false := by simpa [strLt] using hc
        simpa using hf
    constructor
    · rcases List.mem_cons.mp ihmem with hm | hm
      · rw [hm]; exact hmem2
      · exact List.mem_cons_of_mem h (List.mem_cons_of_mem r hm)
    · intro x hx
      rcases List.mem_cons.mp hx with hx | hx
      · exact strLe_trans (hx ▸ hle_h) (ihle h2 (List.mem_cons_self h2 rs))
      · rcases List.mem_cons.mp hx with hx | hx
        · exact strLe_trans (hx ▸ hle_r) (ihle h2 (List.mem_cons_self h2 rs))
        · exact ihle x (List.mem_cons_of_mem h2 hx)

/-- Claim C1, amended.  `get_watermark` ignores `set_watermark` entirely:
it returns the maximum date among the `status='success'` ledger records
written by `record_ingestion` for the key (`None` if there are none),
regardless of any interleaved failed units (on other dates) and of any
interleaved `set_watermark` calls, and independent of the order of the
calls (ascending or not).  `get_watermark` itself is a pure read of the
store.  (Hypotheses: success dates do not contain the substring
`watermark` in their file names — such a file would be invisible to the
ledger scan — and no failed unit shares its date with a success, since a
later failed attempt would overwrite the success's single keyed entry.) -/
theorem c1_get_watermark_from_ledger (data_type layer : String) (ops : List WOp)
    (h1 : ∀ d ∈ successDates ops, dateNameOk d = true)
    (h2 : ∀ d ∈ successDates ops, d ∉ failedDates ops) :
    getWatermark (applyWOps data_type layer emptyStore ops) data_type none layer
      = maxDateStr (successDates ops) := by
  have hiff := successDate_iff data_type layer ops h1 h2
  unfold getWatermark
  simp only [show pyTruthy none = false from rfl, Bool.false_eq_true, if_false]
  cases hrec : listIngestions (applyWOps data_type layer emptyStore ops)
      data_type none none (some "success") (some layer) with
  | nil =>
    have hempty : successDates ops = [] := by
      rw [List.eq_nil_iff_forall_not_mem]
      intro d hd
      obtain ⟨r, hr, _⟩ := (hiff d).mpr hd
      rw [hrec] at hr
      simp at hr
    rw [hempty]
    simp [pickLatest, maxDateStr]
  | cons r rs =>
    obtain ⟨hbmem, hble⟩ := foldMaxRecord_spec r rs
    set best := rs.foldl (fun best r => if strLt best.date r.date then r else best) r
      with hbest
    have hbest_in : hasSuccessDate data_type layer
        (applyWOps data_type layer emptyStore ops) best.date := by
      exact ⟨best, hrec ▸ hbmem, rfl⟩
    have hbd : best.date ∈ successDates ops := (hiff best.date).mp hbest_in
    cases hsd : successDates ops with
    | nil => rw [hsd] at hbd; simp at hbd
    | cons m ms =>
      obtain ⟨hmmem, hmle⟩ := foldMaxStr_spec m ms
      set mx := ms.foldl (fun best x => if strLt best x then x else best) m
        with hmx
      have hmx_in : mx ∈ successDates ops := hsd ▸ hmmem
      obtain ⟨rm, hrm, hrmd⟩ := (hiff mx).mpr hmx_in
      rw [hrec] at hrm
      have hle1 : strLe mx best.date = true := hrmd ▸ hble rm hrm
      have hle2 : strLe best.date mx = true := hmle best.date (hsd ▸ hbd)
      show some best.date = some mx
      rw [strLe_antisymm hle2 hle1]

/-- Claim C2 (code bug).  For input tables A (keys {1,2}), B (keys
{2,3}), C (keys {1,3}) the spec — and the function's own docstring,
"one row per quarter" — require a merged table with exactly the keys
{1,2,3}, each row carrying its natural-key values.  The code instead
performs Polars `how='full'` joins, which do not coalesce key columns,
and then *drops* the suffixed right-side key columns; for a key present
only in the right table those dropped columns held the only copy of the
key.  Result: 4 rows, not 3; key 3 never appears in the key columns;
its `is_revenues` and `cf_net_cash_flow` values sit in two separate rows
whose natural-key columns are entirely null. -/
theorem c2_merge_loses_right_keys :
    c2_merged.rows.length = 4
    ∧ ¬ c2_merged.rows.length = 3
    ∧ (c2_merged.rows.filter fun r =>
        decide (getCell c2_merged r "filing_date" = some "2024-11-01")) = []
    ∧ (c2_merged.rows.filter fun r =>
        decide (getCell c2_merged r "ticker" = none)).length = 2
    ∧ (c2_merged.rows.filter fun r =>
        decide (getCell c2_merged r "is_revenues" = some "30"
          ∧ getCell c2_merged r "ticker" = none
          ∧ getCell c2_merged r "filing_date" = none
          ∧ getCell c2_merged r "fiscal_year" = none
          ∧ getCell c2_merged r "fiscal_period" = none)).length = 1
    ∧ (c2_merged.rows.filter fun r =>
        decide (getCell c2_merged r "cf_net_cash_flow" = some "3"
          ∧ getCell c2_merged r "ticker" = none)).length = 1 := by
  refine ⟨by decide, by decide, by decide, by decide, by decide, by decide⟩

/-- Claim C1, counterexample.  One successful `set_watermark` call with
date 2024-01-02 (an ascending sequence of length 1), then
`get_watermark` for the same `(data_type, symbol, layer)`: the claim
requires `some "2024-01-02"` (the maximum of the sequence), but the code
returns `none` — `get_watermark` computes from success ledger records
and never reads the watermark file that `set_watermark` wrote
(`list_ingestions` skips every file whose name contains `watermark`). -/
theorem c1_counterexample :
    getWatermark c1_set_store "stocks_daily" none "bronze" = none
    ∧ getWatermark c1_set_store "stocks_daily" none "bronze" ≠ some "2024-01-02" := by
  refine ⟨by decide, by decide⟩

/-- Witness for C1: on the concrete scenario the hypotheses hold and
`get_watermark` returns the maximum success date 2024-01-04. -/
theorem c1_get_watermark_from_ledger_witness :
    (∀ d ∈ successDates c1_ops, dateNameOk d = true)
    ∧ (∀ d ∈ successDates c1_ops, d ∉ failedDates c1_ops)
    ∧ getWatermark (applyWOps "stocks_daily" "bronze" emptyStore c1_ops)
        "stocks_daily" none "bronze" = maxDateStr (successDates c1_ops)
    ∧ maxDateStr (successDates c1_ops) = some "2024-01-04" := by
  refine ⟨by decide, by decide, ?_, by decide⟩
  exact c1_get_watermark_from_ledger "stocks_daily" "bronze" c1_ops
    (by decide) (by decide)

/-- Witness for C10: the empty branch at a query matching nothing, and
the full branch at a store with one record. -/
theorem c10_empty_summary_shape_witness :
    (listIngestions emptyStore "stocks_daily" none none none (some "bronze") = []
     ∧ statisticsSummary emptyStore "stocks_daily" none none (some "bronze")
        = { data_type := "stocks_daily", total_jobs := 0, success := 0, failed := 0,
            skipped := 0, success_rate := none, date_range := none,
            total_records := none, total_size_mb := none })
    ∧ (listIngestions c10_store "stocks_daily" none none none (some "bronze") ≠ []
       ∧ (statisticsSummary c10_store "stocks_daily" none none (some "bronze")).success_rate.isSome) := by
  refine ⟨⟨by decide, ?_⟩, ⟨by decide, ?_⟩⟩
  · exact (c10_empty_summary_shape emptyStore "stocks_daily" none none (some "bronze")).1
      (by decide)
  · exact ((c10_empty_summary_shape c10_store "stocks_daily" none none (some "bronze")).2
      (by decide)).1

theorem caDateLe_iff (a b : CADate) : caDateLe a b = true ↔
    (a.y < b.y ∨ (a.y = b.y ∧ (a.m < b.m ∨ (a.m = b.m ∧ a.d ≤ b.d)))) := by
  unfold caDateLe
  by_cases h1 : a.y = b.y
  · by_cases h2 : a.m = b.m
    · simp [h1, h2]
    · simp [h1, h2]
  · simp [h1]

theorem caDateLe_total (a b : CADate) : caDateLe a b = true ∨ caDateLe b a = true := by
  simp only [caDateLe_iff]; omega

theorem caDateLe_trans (a b c : CADate) :
    caDateLe a b = true → caDateLe b c = true → caDateLe a c = true := by
  simp only [caDateLe_iff]; omega

theorem caDescLe_total (a b : CARow) : caDescLe a b = true ∨ caDescLe b a = true :=
  caDateLe_total b.event_date a.event_date

theorem caDescLe_trans (a b c : CARow) :
    caDescLe a b = true → caDescLe b c = true → caDescLe a c = true :=
  fun h1 h2 => caDateLe_trans c.event_date b.event_date a.event_date h2 h1

theorem strAppend_left_cancel {p a b : String} (h : p ++ a = p ++ b) : a = b := by
  have hd := congrArg String.data h
  simp only [String.data_append] at hd
  have h2 : a.data = b.data := List.append_cancel_left hd
  cases a; cases b; exact congrArg String.mk h2

theorem partitionPath_inj {t1 e1 t2 e2 : String}
    (h : partitionPath t1 e1 = partitionPath t2 e2) : t1 = t2 ∧ e1 = e2 := by
  unfold partitionPath at h
  simp only [List.cons.injEq] at h
  exact ⟨strAppend_left_cancel h.1, strAppend_left_cancel h.2.1⟩

theorem mem_combosOf (df : List CARow) (c : String × String) :
    c ∈ combosOf df ↔ ∃ r ∈ df, (r.ticker, r.event_type) = c := by
  unfold combosOf
  rw [List.mem_dedup, List.mem_map]

theorem partRows_ne_nil (df : List CARow) (c : String × String)
    (hc : c ∈ combosOf df) : partRows df c ≠ [] := by
  obtain ⟨r, hr, hrc⟩ := (mem_combosOf df c).mp hc
  have hmem : r ∈ partRows df c := by
    unfold partRows
    rw [List.mem_filter]
    refine ⟨hr, ?_⟩
    cases hrc
    simp
  intro hnil
  rw [hnil] at hmem
  exact List.not_mem_nil r hmem

/-- C9: write_partitioned_silver writes exactly one file per distinct
(ticker, event_type) combination present in the input table: the written
paths are pairwise distinct, there are exactly as many files as distinct
present combinations and every present combination is written; no
written file is empty; and the file of each combination holds exactly
the input rows of that combination, sorted by event_date descending,
each carrying processed_at and the year, quarter and month derived from
its event_date, at the path ticker=X/event_type=Y/data.parquet. -/
theorem c9_partition_writer (df : List CARow) (now : String) :
    ((writePartitionedSilver df now).map Prod.fst).Nodup
    ∧ (writePartitionedSilver df now).length = (combosOf df).length
    ∧ (∀ c : String × String,
        c ∈ combosOf df ↔ ∃ r ∈ df, (r.ticker, r.event_type) = c)
    ∧ (∀ e ∈ writePartitionedSilver df now, e.2 ≠ [])
    ∧ (∀ c ∈ combosOf df,
        ∃ e ∈ writePartitionedSilver df now,
          e.1 = partitionPath c.1 c.2
          ∧ (e.2.map CAOutRow.row).Perm (partRows df c)
          ∧ List.Sorted (fun a b : CAOutRow =>
              caDateLe b.row.event_date a.row.event_date = true) e.2
          ∧ ∀ o ∈ e.2, o.row.ticker = c.1 ∧ o.row.event_type = c.2
              ∧ o.processed_at = now ∧ o.year = o.row.event_date.y
              ∧ o.quarter = caQuarter o.row.event_date
              ∧ o.month = o.row.event_date.m) := by
  refine ⟨?_, ?_, mem_combosOf df, ?_, ?_⟩
  · unfold writePartitionedSilver
    rw [List.map_map]
    refine List.Nodup.map ?_ (List.nodup_dedup _)
    intro c1 c2 hcc
    have hcc2 : partitionPath c1.1 c1.2 = partitionPath c2.1 c2.2 := hcc
    have h := partitionPath_inj hcc2
    cases c1; cases c2
    simpa using h
  · simp [writePartitionedSilver]
  · intro e he h2
    unfold writePartitionedSilver at he
    rw [List.mem_map] at he
    obtain ⟨c, hc, hce⟩ := he
    cases hce
    have h3 : sortLe caDescLe (partRows df c) = [] := List.map_eq_nil_iff.mp h2
    have h4 : (partRows df c).length = 0 := by
      rw [← (sortLe_perm caDescLe (partRows df c)).length_eq, h3, List.length_nil]
    exact partRows_ne_nil df c hc (List.length_eq_zero.mp h4)
  · intro c hc
    refine ⟨(partitionPath c.1 c.2,
      (sortLe caDescLe (partRows df c)).map (augmentCARow now)), ?_, rfl, ?_, ?_, ?_⟩
    · unfold writePartitionedSilver
      exact List.mem_map.mpr ⟨c, hc, rfl⟩
    · show (((sortLe caDescLe (partRows df c)).map (augmentCARow now)).map CAOutRow.row).Perm
        (partRows df c)
      have hid : ((sortLe caDescLe (partRows df c)).map (augmentCARow now)).map CAOutRow.row
          = sortLe caDescLe (partRows df c) := by
        rw [List.map_map]
        exact List.map_id' _
      rw [hid]
      exact sortLe_perm caDescLe (partRows df c)
    · show List.Sorted (fun a b : CAOutRow =>
        caDateLe b.row.event_date a.row.event_date = true)
        ((sortLe caDescLe (partRows df c)).map (augmentCARow now))
      exact List.Pairwise.map _ (fun a b h => h)
        (sortLe_sorted caDescLe caDescLe_total caDescLe_trans (partRows df c))
    · intro o ho
      have ho2 : o ∈ (sortLe caDescLe (partRows df c)).map (augmentCARow now) := ho
      obtain ⟨r, hr, hro⟩ := List.mem_map.mp ho2
      have hrP : r ∈ partRows df c := (mem_sortLe caDescLe (partRows df c) r).mp hr
      unfold partRows at hrP
      rw [List.mem_filter] at hrP
      have hcond := hrP.2
      rw [Bool.and_eq_true, decide_eq_true_iff, decide_eq_true_iff] at hcond
      cases hro
      exact ⟨hcond.1, hcond.2, rfl, rfl, rfl, rfl⟩

/-- Witness for C9: on the concrete three-row table with two
combinations, the dividend combination is present, its written file has
the stated contents, and exactly two files are written. -/
theorem c9_partition_writer_witness :
    ("AAPL", "dividend") ∈ combosOf c9_df
    ∧ (∃ e ∈ writePartitionedSilver c9_df "2025-01-01T00:00:00",
        e.1 = partitionPath "AAPL" "dividend"
        ∧ (e.2.map CAOutRow.row).Perm (partRows c9_df ("AAPL", "dividend"))
        ∧ List.Sorted (fun a b : CAOutRow =>
            caDateLe b.row.event_date a.row.event_date = true) e.2
        ∧ ∀ o ∈ e.2, o.row.ticker = "AAPL" ∧ o.row.event_type = "dividend"
            ∧ o.processed_at = "2025-01-01T00:00:00" ∧ o.year = o.row.event_date.y
            ∧ o.quarter = caQuarter o.row.event_date
            ∧ o.month = o.row.event_date.m)
    ∧ (writePartitionedSilver c9_df "2025-01-01T00:00:00").length = 2 := by
  refine ⟨by decide, ?_, by decide⟩
  exact (c9_partition_writer c9_df "2025-01-01T00:00:00").2.2.2.2
    ("AAPL", "dividend") (by decide)

end Spec2Proof
